import Mathlib

/-!
Verification development for the portfolio construction and weighting engine
(`portfolio_constructor.py`, `portfolio_weights.py`).

Modelling conventions (shallow embedding):
* Assets (tickers) are natural numbers; dates are integers counting months, so
  that `pd.DateOffset(months = m)` becomes subtraction of `m`.
* Float values are modelled as rationals (`ℚ`); a pandas `NaN` (or a value
  absent after alignment) is modelled as `none` in an `Option ℚ`.
* A pandas `Series` with possible `NaN` entries is an ordered association
  list `List (Asset × Option ℚ)`; a `Series` known to carry no `NaN`
  (the weight vectors the weighters build) is a `List (Asset × ℚ)`.
* A pandas `DataFrame` is a `Frame`: an ordered row index, an ordered column
  index, and a total cell function returning `none` for `NaN` cells.
* `pd.to_numeric(errors = coerce)` is absorbed into the `Option ℚ` cell model:
  cells are already numeric-or-missing.
* Prices are assumed to be the finite positive floats real price tables hold,
  so the `pct_change` quotient `q / p - 1` is used directly in `ℚ`.
-/

namespace BBG

abbrev Asset := ℕ

abbrev Date := ℤ

/-- Series of floats with possible NaN entries, in index order. -/
abbrev OSeries := List (Asset × Option ℚ)

/-- Series of floats with no NaN entries, in index order. -/
abbrev WSeries := List (Asset × ℚ)

/-- Models `Series.dropna`: keep the entries whose value is present. -/
def dropna (s : OSeries) : WSeries :=
  s.filterMap (fun kv => kv.2.map (fun v => (kv.1, v)))

/-- Models `Series.sum` on a NaN-free series. -/
def wsum (w : WSeries) : ℚ :=
  (w.map Prod.snd).sum

/-- Models label lookup `w[a]` on a NaN-free series: `none` when the label is
absent from the index. -/
def wlookup (w : WSeries) (a : Asset) : Option ℚ :=
  (w.find? (fun kv => kv.1 == a)).map Prod.snd

/-- Index of a series. -/
def wkeys (w : WSeries) : List Asset :=
  w.map Prod.fst

/-- Models label lookup on a series that may hold NaN: outer `none` means the
label is absent, inner `none` means the stored value is NaN. -/
def olookup (s : OSeries) (a : Asset) : Option (Option ℚ) :=
  (s.find? (fun kv => kv.1 == a)).map Prod.snd

/-- Models `sort_values(ascending = False)` on a NaN-free series. -/
def sortDesc (w : WSeries) : WSeries :=
  List.insertionSort (fun x y : Asset × ℚ => y.2 ≤ x.2) w

/-- Models `sort_values(ascending = True)` on a NaN-free series. -/
def sortAsc (w : WSeries) : WSeries :=
  List.insertionSort (fun x y : Asset × ℚ => x.2 ≤ y.2) w

/-- Models `Series.nlargest(n).index.tolist()`. -/
def nlargestKeys (n : ℕ) (w : WSeries) : List Asset :=
  ((sortDesc w).take n).map Prod.fst

/-- Models `Series.nsmallest(n).index.tolist()`. -/
def nsmallestKeys (n : ℕ) (w : WSeries) : List Asset :=
  ((sortAsc w).take n).map Prod.fst

/-- Models `actual_top_n = min(top_n, len(valid_scores)) if top_n is not None
else len(valid_scores)`. -/
def actualTopN (top_n : Option ℕ) (len : ℕ) : ℕ :=
  match top_n with
  | some n => min n len
  | none => len

/-- Ticker selection shared by the score-Series call shape of the weighters:
drop NaN scores, then take the top (or bottom) `actual_top_n` by score. -/
def selectedTickers (scores : OSeries) (top_n : Option ℕ) (sort_ascending : Bool) :
    List Asset :=
  let valid := dropna scores
  let actual := actualTopN top_n valid.length
  if sort_ascending then nsmallestKeys actual valid else nlargestKeys actual valid

/-- Models `PortfolioWeighter.equal_weight` in the score-Series call shape:
zero weights over the score index, `1/len(selected)` on the selected tickers;
empty valid scores (or `top_n == 0`) return the empty series. -/
def equal_weight (scores : OSeries) (top_n : Option ℕ) (sort_ascending : Bool) :
    WSeries :=
  let valid := dropna scores
  if valid.length = 0 then []
  else if actualTopN top_n valid.length = 0 then []
  else
    let sel := selectedTickers scores top_n sort_ascending
    scores.map (fun kv => (kv.1, if kv.1 ∈ sel then 1 / (sel.length : ℚ) else 0))

/-- Models `PortfolioWeighter.equal_weight` in the pre-selected ticker-list
call shape. In the source, an empty list reaches `1.0 / len(selected_tickers)`
and raises `ZeroDivisionError`; that error outcome is modelled as `none`. -/
def equal_weight_list (tickers : List Asset) : Option WSeries :=
  if tickers.length = 0 then none
  else some (tickers.map (fun a => (a, 1 / (tickers.length : ℚ))))

/-- Value of `market_cap_data[a]` after `.fillna(0)`; absent labels are also
read as `0` (real callers pass a cap row covering the selection). -/
def mcapVal (mcap : OSeries) (a : Asset) : ℚ :=
  ((olookup mcap a).getD none).getD 0

/-- Models `PortfolioWeighter.market_cap_weight` in the score-Series call
shape: weights proportional to capitalization among the selected tickers, with
equal weight as the fallback when the total selected capitalization is `≤ 0`. -/
def market_cap_weight (scores : OSeries) (top_n : Option ℕ) (mcap : OSeries)
    (sort_ascending : Bool) : WSeries :=
  let valid := dropna scores
  if valid.length = 0 then []
  else if actualTopN top_n valid.length = 0 then []
  else
    let sel := selectedTickers scores top_n sort_ascending
    let total := (sel.map (mcapVal mcap)).sum
    if total ≤ 0 then
      scores.map (fun kv => (kv.1, if kv.1 ∈ sel then 1 / (sel.length : ℚ) else 0))
    else
      scores.map (fun kv => (kv.1, if kv.1 ∈ sel then mcapVal mcap kv.1 / total else 0))

/-- Models `PortfolioWeighter.market_cap_weight` in the ticker-list call shape:
the base series is zero over the capitalization row index. An empty list with
total capitalization `≤ 0` reaches `1.0 / len(selected_tickers)` and raises;
that outcome is `none`. -/
def market_cap_weight_list (tickers : List Asset) (mcap : OSeries) : Option WSeries :=
  let total := (tickers.map (mcapVal mcap)).sum
  if total ≤ 0 then
    if tickers.length = 0 then none
    else some ((mcap.map Prod.fst).map
      (fun a => (a, if a ∈ tickers then 1 / (tickers.length : ℚ) else 0)))
  else some ((mcap.map Prod.fst).map
    (fun a => (a, if a ∈ tickers then mcapVal mcap a / total else 0)))

/-- DataFrame: ordered date index, ordered asset columns, total cell map with
`none` for NaN. -/
structure Frame where
  rows : List Date
  cols : List Asset
  cell : Date → Asset → Option ℚ

/-- Models the `[(index >= start) & (index <= end)]` date filter. -/
def filteredDates (price : Frame) (start_date end_date : Date) : List Date :=
  price.rows.filter (fun d => start_date ≤ d ∧ d ≤ end_date)

/-- Models `filtered_dates.sort_values()` producing the rebalance anchors. -/
def rebalanceDates (fd : List Date) : List Date :=
  List.insertionSort (fun x y : Date => x ≤ y) fd

/-- Models the masked-assignment loop of `_prepare_portfolio_construction`:
for each consecutive anchor pair `(a_i, a_i1)` the dates in `[a_i, a_i1)` are
assigned `a_i` (later assignments overwrite earlier ones, as in the source
loop), and finally every date `≥` the last anchor is assigned the last anchor. -/
def rebalMap (anchors : List Date) (d : Date) : Option Date :=
  let base := (anchors.zip anchors.tail).foldl
    (fun acc p => if p.1 ≤ d ∧ d < p.2 then some p.1 else acc) none
  match anchors.getLast? with
  | some lastA => if lastA ≤ d then some lastA else base
  | none => base

/-- Models `get_tickers_at_date`: columns of the composition table whose flag
at `d` equals `1`. -/
def get_tickers_at_date (comp : Frame) (d : Date) : List Asset :=
  comp.cols.filter (fun a => comp.cell d a == some 1)

/-- Models `factor.loc[d][valid_tickers].dropna()` followed by the numeric
coercion: the factor row restricted to the eligible tickers, NaN dropped. -/
def currentScores (factor : Frame) (d : Date) (tickers : List Asset) : OSeries :=
  (tickers.map (fun a => (a, factor.cell d a))).filter (fun kv => kv.2.isSome)

/-- Models the `(price_data.index >= current_date - DateOffset(months = m)) &
(price_data.index <= current_date)` lookback window. -/
def lookbackRows (price : Frame) (current_date : Date) (lookback_months : ℕ) :
    List Date :=
  price.rows.filter (fun r => current_date - (lookback_months : ℤ) ≤ r ∧ r ≤ current_date)

/-- Models `price_subset[selected_tickers].dropna(axis=1, thresh=len(price_subset)//2)`:
keep a selected column when at least `⌊rows/2⌋` of its prices are present. -/
def availableTickers (price : Frame) (rows : List Date) (selected : List Asset) :
    List Asset :=
  selected.filter (fun a => rows.length / 2 ≤ rows.countP (fun r => (price.cell r a).isSome))

/-- One row of `pct_change(fill_method=None)`: the simple return of each column
between two consecutive dates, `none` when either price is missing. -/
def pctRow (price : Frame) (cols : List Asset) (r0 r1 : Date) : List (Option ℚ) :=
  cols.map (fun a =>
    match price.cell r0 a, price.cell r1 a with
    | some p, some q => some (q / p - 1)
    | _, _ => none)

/-- Models `pct_change(fill_method=None).dropna()` on the lookback window: one
return row per consecutive date pair (the all-NaN first row never appears),
keeping only the rows where every column has a return. -/
def returnRows (price : Frame) (rows : List Date) (cols : List Asset) :
    List (List ℚ) :=
  (rows.zip rows.tail).filterMap (fun rr =>
    let vals := pctRow price cols rr.1 rr.2
    if vals.all Option.isSome then some (vals.map (fun v => v.getD 0)) else none)

/-- Entry `t j` of a return matrix stored as a list of rows. -/
def entryAt (R : List (List ℚ)) (t j : ℕ) : ℚ :=
  (R.getD t []).getD j 0

/-- Column mean of a return matrix. -/
def colMean (R : List (List ℚ)) (j : ℕ) : ℚ :=
  (∑ t ∈ Finset.range R.length, entryAt R t j) / (R.length : ℚ)

/-- Models `returns.cov() * 12`: the annualized sample covariance (pandas
divides by `len - 1`). -/
def covE (R : List (List ℚ)) (j k : ℕ) : ℚ :=
  (∑ t ∈ Finset.range R.length,
      (entryAt R t j - colMean R j) * (entryAt R t k - colMean R k))
    / ((R.length : ℚ) - 1) * 12

/-- Check on the covariance matrix modelling
`np.any(np.linalg.eigvals(cov) <= 1e-8)`; the numerical eigenvalue routine is
kept abstract, constrained where a claim needs its meaning. -/
abbrev EigCheck := (ℕ → ℕ → ℚ) → ℕ → Bool

/-- Models the ridge step: when the eigenvalue check fires, add
`np.eye(n) * 1e-6` to the covariance matrix, else keep it. -/
def regCov (eigCheck : EigCheck) (M : ℕ → ℕ → ℚ) (n : ℕ) : ℕ → ℕ → ℚ :=
  if eigCheck M n then fun j k => M j k + if j = k then 1 / 1000000 else 0 else M

/-- Outcome of `scipy.optimize.minimize` as the engine reads it. -/
structure SolverResult where
  success : Bool
  x : List ℚ

/-- Abstract SLSQP solver: covariance matrix, its dimension, the equal-weight
initial guess. -/
abbrev Solver := (ℕ → ℕ → ℚ) → ℕ → (ℕ → ℚ) → SolverResult

/-- Models `weights[keys] = v` on a NaN-free base series. -/
def setWeights (base : WSeries) (keys : List Asset) (v : ℚ) : WSeries :=
  base.map (fun kv => if kv.1 ∈ keys then (kv.1, v) else kv)

/-- Models the per-ticker assignment loop `weights[ticker] = optimal_weights[i]`. -/
def setWeightsBy (base : WSeries) (f : Asset → Option ℚ) : WSeries :=
  base.map (fun kv =>
    match f kv.1 with
    | some v => (kv.1, v)
    | none => kv)

/-- Body of `minimum_variance_weight` shared by both call shapes, from the
lookback filter on: the three insufficient-data fallbacks (equal weight over
the selected tickers), the covariance build, the eigenvalue/ridge step, the
optimization, and the equal-weight-over-available fallback on failure (the
`except` branch of the source coincides with the `not success` branch here). -/
def minVarCore (solver : Solver) (eigCheck : EigCheck) (selected : List Asset)
    (base : WSeries) (price : Frame) (current_date : Date) (lookback_months : ℕ) :
    WSeries :=
  let rows := lookbackRows price current_date lookback_months
  if rows.length < 2 then setWeights base selected (1 / (selected.length : ℚ))
  else
    let available := availableTickers price rows selected
    if available.length < 2 then setWeights base selected (1 / (selected.length : ℚ))
    else
      let R := returnRows price rows available
      if R.length < 2 then setWeights base selected (1 / (selected.length : ℚ))
      else
        let n := available.length
        let M := regCov eigCheck (covE R) n
        let res := solver M n (fun _ => 1 / (n : ℚ))
        if res.success then
          setWeightsBy base
            (fun a => ((available.zip res.x).find? (fun p => p.1 == a)).map Prod.snd)
        else setWeights base available (1 / (available.length : ℚ))

/-- Models `PortfolioWeighter.minimum_variance_weight` in the score-Series
call shape. -/
def minimum_variance_weight (solver : Solver) (eigCheck : EigCheck)
    (scores : OSeries) (top_n : Option ℕ) (price : Frame) (current_date : Date)
    (lookback_months : ℕ) (sort_ascending : Bool) : WSeries :=
  let valid := dropna scores
  if valid.length = 0 then []
  else if actualTopN top_n valid.length = 0 then []
  else
    let sel := selectedTickers scores top_n sort_ascending
    minVarCore solver eigCheck sel (scores.map (fun kv => (kv.1, 0))) price
      current_date lookback_months

/-- Models `PortfolioWeighter.minimum_variance_weight` in the ticker-list call
shape. With an empty list every path reaches a `1.0 / len(...)` over an empty
selection and raises `ZeroDivisionError`, modelled as `none`. -/
def minimum_variance_weight_list (solver : Solver) (eigCheck : EigCheck)
    (tickers : List Asset) (price : Frame) (current_date : Date)
    (lookback_months : ℕ) : Option WSeries :=
  if tickers.length = 0 then none
  else some (minVarCore solver eigCheck tickers (tickers.map (fun a => (a, 0)))
    price current_date lookback_months)

/-- Models `price_subset.dropna(axis=1)` in the volatility overlay: keep the
columns with a price at every window date. -/
def vsCols (price : Frame) (rows : List Date) : List Asset :=
  price.cols.filter (fun a => rows.all (fun r => (price.cell r a).isSome))

/-- Models `initial_weights.index.intersection(returns_cov_matrix.index)`
(element order is irrelevant to the quadratic form it feeds). -/
def vsCommon (initial_weights : WSeries) (cols : List Asset) : List Asset :=
  (initial_weights.map Prod.fst).filter (fun a => a ∈ cols)

/-- Entry of `returns_cov_matrix.reindex(common, columns=common).fillna(0)`. -/
def covLook (R : List (List ℚ)) (cols : List Asset) (a b : Asset) : ℚ :=
  if a ∈ cols ∧ b ∈ cols then covE R (cols.indexOf a) (cols.indexOf b) else 0

/-- Models `np.dot(aligned_weights, np.dot(aligned_cov, aligned_weights))`. -/
def vsVar (R : List (List ℚ)) (cols : List Asset) (initial_weights : WSeries)
    (common : List Asset) : ℚ :=
  (common.map (fun a =>
    (common.map (fun b =>
      ((wlookup initial_weights a).getD 0) * covLook R cols a b *
        ((wlookup initial_weights b).getD 0))).sum)).sum

/-- Models `PortfolioWeighter.volatility_scaling_weight`. The square root in
`current_volatility = np.sqrt(portfolio_variance)` is kept abstract as `sq`
(constrained to be positive on positive inputs where a claim needs it). -/
def volatility_scaling_weight (sq : ℚ → ℚ) (initial_weights : WSeries)
    (price : Frame) (current_date : Date) (target_volatility : ℚ)
    (lookback_months : ℕ) : WSeries :=
  if wsum initial_weights = 0 then initial_weights
  else
    let rows := lookbackRows price current_date lookback_months
    if rows.length < 2 then initial_weights
    else
      let cols := vsCols price rows
      let R := returnRows price rows cols
      if R.length = 0 then initial_weights
      else
        let common := vsCommon initial_weights cols
        if common.length = 0 then initial_weights
        else
          let pvar := vsVar R cols initial_weights common
          let cvol := if 0 < pvar then sq pvar else 0
          if cvol = 0 then initial_weights
          else
            let factor := target_volatility / cvol
            let scaled := initial_weights.map (fun kv => (kv.1, kv.2 * factor))
            if 1 < wsum scaled then scaled.map (fun kv => (kv.1, kv.2 / wsum scaled))
            else scaled

/-- Abbreviation: the return matrix the volatility overlay builds. -/
def vsRet (price : Frame) (d : Date) (lb : ℕ) : List (List ℚ) :=
  returnRows price (lookbackRows price d lb) (vsCols price (lookbackRows price d lb))

/-- Abbreviation: `portfolio_variance` of the overlay. -/
def vsPvar (w : WSeries) (price : Frame) (d : Date) (lb : ℕ) : ℚ :=
  vsVar (vsRet price d lb) (vsCols price (lookbackRows price d lb)) w
    (vsCommon w (vsCols price (lookbackRows price d lb)))

/-- Abbreviation: `current_volatility` of the overlay. -/
def vsCvol (sq : ℚ → ℚ) (w : WSeries) (price : Frame) (d : Date) (lb : ℕ) : ℚ :=
  if 0 < vsPvar w price d lb then sq (vsPvar w price d lb) else 0

/-- Abbreviation: `scaled_weights = initial_weights * (target/current)`. -/
def vsScaled (sq : ℚ → ℚ) (w : WSeries) (price : Frame) (d : Date) (tv : ℚ)
    (lb : ℕ) : WSeries :=
  w.map (fun kv => (kv.1, kv.2 * (tv / vsCvol sq w price d lb)))

/-- Weighting-method selector of `construct_portfolio` /
`construct_conditional_portfolio`. -/
inductive WMethod where
  | equal : WMethod
  | market_cap : WMethod
  | min_variance : WMethod

/-- Call parameters of a construction run (the conditional variant ignores
`top_n`). -/
structure CParams where
  start_date : Date
  end_date : Date
  top_n : Option ℕ
  method : WMethod
  volatility_scaling : Bool
  target_volatility : ℚ
  volatility_lookback_months : ℕ

/-- The caller-supplied tables of a run. `price` doubles as
`self.all_price_date` (the source aliases the unfiltered table for the
weighters, while the schedule uses the date-filtered view of the same table). -/
structure Tables where
  price : Frame
  comp : Frame
  factor : Frame
  valF : Frame
  momF : Frame
  profF : Frame
  mcap : Frame

/-- Abstract numerical collaborators: the SLSQP solver, the eigenvalue check,
and the square root. -/
structure Ctx where
  solver : Solver
  eigCheck : EigCheck
  sq : ℚ → ℚ

/-- Models `market_cap_data.loc[current_date]`: the full capitalization row. -/
def mcapRow (mcap : Frame) (d : Date) : OSeries :=
  mcap.cols.map (fun a => (a, mcap.cell d a))

/-- One iteration of the `construct_portfolio` rebalance loop: selection by
score, weighting by the chosen method (`sort_ascending = False` throughout),
then the optional volatility overlay. -/
def periodWeights (ctx : Ctx) (T : Tables) (p : CParams) (d : Date) : WSeries :=
  let valid_tickers := get_tickers_at_date T.comp d
  let current_scores := currentScores T.factor d valid_tickers
  let nw :=
    match p.method with
    | WMethod.market_cap => market_cap_weight current_scores p.top_n (mcapRow T.mcap d) false
    | WMethod.min_variance =>
        minimum_variance_weight ctx.solver ctx.eigCheck current_scores p.top_n
          T.price d p.volatility_lookback_months false
    | WMethod.equal => equal_weight current_scores p.top_n false
  if p.volatility_scaling then
    volatility_scaling_weight ctx.sq nw T.price d p.target_volatility
      p.volatility_lookback_months
  else nw

/-- Models the `common_tickers` computation of the conditional variant: the
eligible tickers carrying a present value, momentum and profitability score.
(The source materializes this through Python sets; element order is irrelevant
to every downstream set-level quantity.) -/
def conditionalCommon (comp valF momF profF : Frame) (d : Date) : List Asset :=
  (get_tickers_at_date comp d).filter (fun a =>
    (valF.cell d a).isSome ∧ (momF.cell d a).isSome ∧ (profF.cell d a).isSome)

/-- Score of a ticker known to carry one (`getD 0` is never read on the
common set). -/
def scoreOf (F : Frame) (d : Date) (a : Asset) : ℚ :=
  (F.cell d a).getD 0

/-- Models `sorted.head(n).index`: the `n` highest-scored tickers. -/
def bucketHigh (scores : WSeries) (n : ℕ) : List Asset :=
  ((sortDesc scores).take n).map Prod.fst

/-- Models `sorted.tail(n).index`: the `n` lowest-scored tickers. -/
def bucketLow (scores : WSeries) (n : ℕ) : List Asset :=
  ((sortDesc scores).drop ((sortDesc scores).length - n)).map Prod.fst

/-- Models `int(n * 0.3)`. For every count `n` a table can hold, the double
product `n * 0.3` rounds to exactly the integer `3n/10` when `10 ∣ 3n` (the
exact product sits within a quarter ulp of it), and otherwise sits at least
`0.1 - ε` away from every integer, so truncation agrees with `⌊3n/10⌋`. -/
def truncN (n : ℕ) : ℕ :=
  3 * n / 10

/-- Models `max(1, int(len * 0.3))` used inside a value group. -/
def subN (k : ℕ) : ℕ :=
  max 1 (truncN k)

/-- Score series of a ticker group. -/
def groupScores (F : Frame) (d : Date) (group : List Asset) : WSeries :=
  group.map (fun a => (a, scoreOf F d a))

/-- Value-high bucket of the common set (`head(int(n*0.3))` by value score). -/
def valueHighTickers (valF : Frame) (d : Date) (common : List Asset) : List Asset :=
  bucketHigh (groupScores valF d common) (truncN common.length)

/-- Value-low bucket of the common set (`tail(int(n*0.3))` by value score). -/
def valueLowTickers (valF : Frame) (d : Date) (common : List Asset) : List Asset :=
  bucketLow (groupScores valF d common) (truncN common.length)

/-- Value-neutral bucket: the common tickers in neither extreme bucket. -/
def valueNeutralTickers (valF : Frame) (d : Date) (common : List Asset) : List Asset :=
  common.filter (fun a =>
    ¬ a ∈ valueHighTickers valF d common ∧ ¬ a ∈ valueLowTickers valF d common)

/-- High sub-bucket (momentum or profitability) within a value group. -/
def groupHigh (F : Frame) (d : Date) (group : List Asset) : List Asset :=
  bucketHigh (groupScores F d group) (subN group.length)

/-- Low sub-bucket within a value group. -/
def groupLow (F : Frame) (d : Date) (group : List Asset) : List Asset :=
  bucketLow (groupScores F d group) (subN group.length)

/-- Neutral sub-bucket within a value group. -/
def groupNeutral (F : Frame) (d : Date) (group : List Asset) : List Asset :=
  group.filter (fun a => ¬ a ∈ groupHigh F d group ∧ ¬ a ∈ groupLow F d group)

/-- Models the buy-list assembly: the source registers the nonempty
intersections `value_group ∩ mom_bucket ∩ prof_bucket` for the three value
groups in a dict, then keeps the names `high_{mom}_{prof}` with `mom ≠ low`
and `prof ≠ low` and deduplicates with `list(set(...))`. Only the value-high
group's four non-low combinations can contribute, giving these four
intersections. -/
def buyEligible (valF momF profF : Frame) (d : Date) (common : List Asset) :
    List Asset :=
  let vhigh := valueHighTickers valF d common
  let mHigh := groupHigh momF d vhigh
  let mNeutral := groupNeutral momF d vhigh
  let pHigh := groupHigh profF d vhigh
  let pNeutral := groupNeutral profF d vhigh
  ((vhigh.filter (fun a => a ∈ mHigh ∧ a ∈ pHigh)) ++
    (vhigh.filter (fun a => a ∈ mHigh ∧ a ∈ pNeutral)) ++
    (vhigh.filter (fun a => a ∈ mNeutral ∧ a ∈ pHigh)) ++
    (vhigh.filter (fun a => a ∈ mNeutral ∧ a ∈ pNeutral))).dedup

/-- Per-period selection of `construct_conditional_portfolio`: empty when the
common set has fewer than 10 names, else the buy-eligible set. -/
def condSelection (comp valF momF profF : Frame) (d : Date) : List Asset :=
  let common := conditionalCommon comp valF momF profF d
  if common.length < 10 then []
  else buyEligible valF momF profF d common

/-- Models `pd.Series(0.0, index=self.price_data.columns)`. -/
def zerosRow (cols : List Asset) : WSeries :=
  cols.map (fun a => (a, 0))

/-- One iteration of the `construct_conditional_portfolio` rebalance loop.
The `getD []` defaults are never read: the empty selection is intercepted
before the list-shaped weighters (which are `some` on nonempty input). -/
def conditionalPeriodWeights (ctx : Ctx) (T : Tables) (p : CParams) (d : Date) :
    WSeries :=
  let final_tickers := condSelection T.comp T.valF T.momF T.profF d
  if final_tickers.length = 0 then zerosRow T.price.cols
  else
    let nw :=
      match p.method with
      | WMethod.market_cap =>
          (market_cap_weight_list final_tickers (mcapRow T.mcap d)).getD []
      | WMethod.min_variance =>
          (minimum_variance_weight_list ctx.solver ctx.eigCheck final_tickers
            T.price d p.volatility_lookback_months).getD []
      | WMethod.equal => (equal_weight_list final_tickers).getD []
    if p.volatility_scaling then
      volatility_scaling_weight ctx.sq nw T.price d p.target_volatility
        p.volatility_lookback_months
    else nw

/-- The weight series `new_weights` of one `construct_portfolio` iteration
before the optional overlay (the method dispatch of the source loop). -/
def methodWeights (ctx : Ctx) (T : Tables) (p : CParams) (d : Date) : WSeries :=
  match p.method with
  | WMethod.market_cap =>
      market_cap_weight (currentScores T.factor d (get_tickers_at_date T.comp d))
        p.top_n (mcapRow T.mcap d) false
  | WMethod.min_variance =>
      minimum_variance_weight ctx.solver ctx.eigCheck
        (currentScores T.factor d (get_tickers_at_date T.comp d)) p.top_n
        T.price d p.volatility_lookback_months false
  | WMethod.equal =>
      equal_weight (currentScores T.factor d (get_tickers_at_date T.comp d))
        p.top_n false

/-- The weight series of one `construct_conditional_portfolio` iteration with
nonempty selection, before the optional overlay. -/
def condMethodWeights (ctx : Ctx) (T : Tables) (p : CParams) (d : Date) : WSeries :=
  match p.method with
  | WMethod.market_cap =>
      (market_cap_weight_list (condSelection T.comp T.valF T.momF T.profF d)
        (mcapRow T.mcap d)).getD []
  | WMethod.min_variance =>
      (minimum_variance_weight_list ctx.solver ctx.eigCheck
        (condSelection T.comp T.valF T.momF T.profF d) T.price d
        p.volatility_lookback_months).getD []
  | WMethod.equal =>
      (equal_weight_list (condSelection T.comp T.valF T.momF T.profF d)).getD []

/-- The two construction entry points. -/
inductive RunKind where
  | single : RunKind
  | conditional : RunKind

/-- The weight vector computed at one rebalance anchor, for either entry
point. -/
def runPeriodWeights (kind : RunKind) (ctx : Ctx) (T : Tables) (p : CParams)
    (d : Date) : WSeries :=
  match kind with
  | RunKind.single => periodWeights ctx T p d
  | RunKind.conditional => conditionalPeriodWeights ctx T p d

/-- The sorted anchors of a run. -/
def anchorsOf (price : Frame) (start_date end_date : Date) : List Date :=
  rebalanceDates (filteredDates price start_date end_date)

/-- Entry of the produced WeightSchedule: `weights.loc[date] =
portfolio_weights[rebal_date]` broadcasts the anchor's weight series into the
full-column row, pandas alignment turning every column absent from that series
into NaN (`none`). -/
def scheduleEntry (kind : RunKind) (ctx : Ctx) (T : Tables) (p : CParams)
    (d : Date) (a : Asset) : Option ℚ :=
  match rebalMap (anchorsOf T.price p.start_date p.end_date) d with
  | some anc => wlookup (runPeriodWeights kind ctx T p anc) a
  | none => none

/-- Models row `i` of `price_data.loc[filtered_dates].pct_change(fill_method=None).fillna(0)`:
the all-NaN first row and every missing transition read as a `0` return. -/
def monthlyReturnAt (price : Frame) (fd : List Date) (i : ℕ) (a : Asset) : ℚ :=
  if i = 0 then 0
  else
    match price.cell (fd.getD (i - 1) 0) a, price.cell (fd.getD i 0) a with
    | some p, some q => q / p - 1
    | _, _ => 0

/-- Models `weights.shift(1)` positionally: the first row is all NaN. -/
def shiftedWeight (row : ℕ → Asset → Option ℚ) (i : ℕ) (a : Asset) : Option ℚ :=
  if i = 0 then none else row (i - 1) a

/-- Models `(monthly_returns * weights.shift(1)).sum(axis=1)`: NaN-weighted
terms drop out of the skipna row sum. -/
def portRet (price : Frame) (fd : List Date) (row : ℕ → Asset → Option ℚ)
    (i : ℕ) : ℚ :=
  (price.cols.map (fun a =>
    ((shiftedWeight row i a).map (fun w => monthlyReturnAt price fd i a * w)).getD 0)).sum

/-- Models `(1 + portfolio_returns).cumprod()` at position `i`. -/
def portValue (price : Frame) (fd : List Date) (row : ℕ → Asset → Option ℚ)
    (i : ℕ) : ℚ :=
  ((List.range (i + 1)).map (fun j => 1 + portRet price fd row j)).prod

/-- Schedule row of a run read positionally along the filtered date axis. -/
def runRow (kind : RunKind) (ctx : Ctx) (T : Tables) (p : CParams) (i : ℕ)
    (a : Asset) : Option ℚ :=
  scheduleEntry kind ctx T p
    ((filteredDates T.price p.start_date p.end_date).getD i 0) a

/-- Index object of a caller-owned table: either the raw (string-like) index
the caller built it with, or a parsed DatetimeIndex. -/
inductive PIndex where
  | raw : List ℕ → PIndex
  | dt : List Date → PIndex
deriving DecidableEq

/-- Caller-owned mutable table: its index object and its cell contents. -/
structure MutTable where
  index : PIndex
  cells : ℕ → ℕ → Option ℚ

/-- Models the in-place `table.index = pd.to_datetime(table.index)` guarded by
`isinstance(index, DatetimeIndex)` in `PortfolioConstructor.__init__`; `parse`
stands for `pd.to_datetime`. All later constructor and construction steps only
rebind attributes to freshly built frames or read cells, so this is the sole
in-place write the engine performs on caller data. -/
def initIndexEffect (parse : List ℕ → List Date) (t : MutTable) : MutTable :=
  match t.index with
  | PIndex.dt _ => t
  | PIndex.raw l => { t with index := PIndex.dt (parse l) }

/-- Effect of `PortfolioConstructor.__init__` on the caller's price and
universe tables (factor and capitalization tables are not touched by any code
path of a run). -/
def constructorInitEffect (parse : List ℕ → List Date)
    (price_data composition_data : MutTable) : MutTable × MutTable :=
  (initIndexEffect parse price_data, initIndexEffect parse composition_data)

/-- Quadratic form `wᵀ M w` of an `n × n` matrix, the quantity whose positivity
margin over `‖w‖²` expresses the eigenvalue bound of the regularization check
without spectral machinery: a symmetric matrix has no eigenvalue `≤ c` exactly
when `wᵀ M w > c ‖w‖²` for every `w ≠ 0`. -/
def quadForm (M : ℕ → ℕ → ℚ) (n : ℕ) (w : ℕ → ℚ) : ℚ :=
  ∑ j ∈ Finset.range n, ∑ k ∈ Finset.range n, w j * M j k * w k

/-- Row sum of the produced WeightSchedule at date `d`, NaN entries skipped as
pandas `sum(axis=1)` does. -/
def scheduleRowSum (kind : RunKind) (ctx : Ctx) (T : Tables) (p : CParams)
    (d : Date) : ℚ :=
  (T.price.cols.map (fun a => (scheduleEntry kind ctx T p d a).getD 0)).sum

/-- The selection of the rebalance period anchored at `d`. -/
def runSelection (kind : RunKind) (T : Tables) (p : CParams) (d : Date) :
    List Asset :=
  match kind with
  | RunKind.single =>
      selectedTickers (currentScores T.factor d (get_tickers_at_date T.comp d))
        p.top_n false
  | RunKind.conditional => condSelection T.comp T.valF T.momF T.profF d

/-- Structural well-formedness of the caller's tables: unique column labels,
columns of the universe and capitalization tables aligned into the price
columns, and nonnegative capitalizations. -/
structure GoodInputs (T : Tables) : Prop where
  priceNd : T.price.cols.Nodup
  compNd : T.comp.cols.Nodup
  mcapNd : T.mcap.cols.Nodup
  compSubPrice : ∀ a ∈ T.comp.cols, a ∈ T.price.cols
  compSubMcap : ∀ a ∈ T.comp.cols, a ∈ T.mcap.cols
  mcapSubPrice : ∀ a ∈ T.mcap.cols, a ∈ T.price.cols
  mcapNonneg : ∀ d a q, T.mcap.cell d a = some q → 0 ≤ q

/-- The constraint contract SLSQP honours when it reports success: a weight
vector of the right dimension inside the box `[0,1]` summing to `1`. -/
def GoodSolver (s : Solver) : Prop :=
  ∀ M n g, (s M n g).success = true →
    (s M n g).x.length = n ∧ (∀ v ∈ (s M n g).x, 0 ≤ v ∧ v ≤ 1) ∧
      (s M n g).x.sum = 1

/-- The one property of `np.sqrt` the engine relies on: positive on positive
input. -/
def GoodSq (sq : ℚ → ℚ) : Prop :=
  ∀ v, 0 < v → 0 < sq v

/-- Fixture: a solver that always reports failure. -/
def cexSolver : Solver := fun _ _ _ => { success := false, x := [] }

/-- Fixture: an eigenvalue check that never fires. -/
def cexEig : EigCheck := fun _ _ => false

/-- Fixture: a trivial positive square root stand-in. -/
def cexSq : ℚ → ℚ := fun _ => 1

/-- Fixture: abstract numerical collaborators for concrete evaluations. -/
def cexCtx : Ctx := { solver := cexSolver, eigCheck := cexEig, sq := cexSq }

/-- Fixture: one date, two assets, all prices 1. -/
def cexPrice1 : Frame := { rows := [0], cols := [0, 1], cell := fun _ _ => some 1 }

/-- Fixture: universe table marking asset 0 eligible and asset 1 ineligible. -/
def cexComp1 : Frame :=
  { rows := [0], cols := [0, 1], cell := fun _ a => if a = 0 then some 1 else some 0 }

/-- Fixture: tables for the partial-eligibility run. -/
def cexTables1 : Tables :=
  { price := cexPrice1, comp := cexComp1, factor := cexPrice1, valF := cexPrice1,
    momF := cexPrice1, profF := cexPrice1, mcap := cexPrice1 }

/-- Fixture: tables with every asset eligible everywhere. -/
def witTables1 : Tables :=
  { price := cexPrice1, comp := cexPrice1, factor := cexPrice1, valF := cexPrice1,
    momF := cexPrice1, profF := cexPrice1, mcap := cexPrice1 }

/-- Fixture: two dates, two assets, asset 1 entirely unpriced. -/
def cexPriceMissing : Frame :=
  { rows := [0, 1], cols := [0, 1],
    cell := fun _ a => if a = 1 then none else some 1 }

/-- Fixture: four dates, asset 0 fully priced, asset 1 priced only at the
first date (so it is dropped by the missing-history threshold). -/
def c4Price : Frame :=
  { rows := [0, 1, 2, 3], cols := [0, 1],
    cell := fun r a => if a = 0 then some 1 else if r = 0 then some 1 else none }

/-- Fixture: one date, twenty assets, flag/price 1 everywhere. -/
def witFrame20 : Frame :=
  { rows := [0], cols := List.range 20, cell := fun _ _ => some 1 }

/-- Fixture: factor table scoring each of twenty assets by its own id. -/
def witVal20 : Frame :=
  { rows := [0], cols := List.range 20, cell := fun _ a => some ((a : ℚ)) }

/-- Fixture: a twenty-name fully eligible conditional universe. -/
def witTables20 : Tables :=
  { price := witFrame20, comp := witFrame20, factor := witVal20, valF := witVal20,
    momF := witVal20, profF := witVal20, mcap := witFrame20 }

/-- Fixture: equal weighting, no overlay, window `[0, 0]`. -/
def cexParams1 : CParams :=
  { start_date := 0, end_date := 0, top_n := none, method := WMethod.equal,
    volatility_scaling := false, target_volatility := 15/100,
    volatility_lookback_months := 6 }

example : dropna [(0, some (3 : ℚ)), (1, none), (2, some 5)] = [(0, 3), (2, 5)] := by
  decide

example : equal_weight [(0, some (3 : ℚ)), (1, none), (2, some 5)] (some 1) false
    = [(0, 0), (1, 0), (2, 1)] := by
  norm_num +decide [equal_weight, selectedTickers, nlargestKeys, sortDesc, actualTopN, dropna,
    List.insertionSort, List.orderedInsert, List.filterMap_cons]

example : equal_weight [(0, some (3 : ℚ)), (1, none), (2, some 5)] none false
    = [(0, 1/2), (1, 0), (2, 1/2)] := by
  norm_num +decide [equal_weight, selectedTickers, nlargestKeys, sortDesc, actualTopN, dropna,
    List.insertionSort, List.orderedInsert, List.filterMap_cons]

example : equal_weight_list [] = none := by decide

example : equal_weight_list [4, 7] = some [(4, 1/2), (7, 1/2)] := by
  norm_num [equal_weight_list]

example : rebalMap [1, 3, 5] 3 = some 3 := by decide

example : rebalMap [1, 3, 5] 6 = some 5 := by decide

example : rebalMap [] 6 = none := by decide

/-! ### Series lemmas -/

theorem wlookup_nil (a : Asset) : wlookup [] a = none := rfl

theorem wlookup_cons (kv : Asset × ℚ) (rest : WSeries) (a : Asset) :
    wlookup (kv :: rest) a = if kv.1 = a then some kv.2 else wlookup rest a := by
  by_cases h : kv.1 = a
  · simp [wlookup, List.find?_cons_of_pos, h]
  · simp [wlookup, List.find?_cons_of_neg, h]

theorem wlookup_eq_none (w : WSeries) (a : Asset) (h : a ∉ wkeys w) :
    wlookup w a = none := by
  induction w with
  | nil => rfl
  | cons kv rest ih =>
      simp only [wkeys, List.map_cons, List.mem_cons, not_or] at h
      rw [wlookup_cons, if_neg (fun he => h.1 he.symm)]
      exact ih (by simpa [wkeys] using h.2)

theorem wlookup_mapval (s : OSeries) (V : Asset → ℚ) (a : Asset) :
    wlookup (s.map (fun kv => (kv.1, V kv.1))) a
      = if a ∈ s.map Prod.fst then some (V a) else none := by
  induction s with
  | nil => simp [wlookup]
  | cons kv rest ih =>
      rw [List.map_cons, List.map_cons, wlookup_cons]
      by_cases h : kv.1 = a
      · subst h
        simp
      · rw [if_neg h, ih]
        by_cases hm : a ∈ rest.map Prod.fst
        · rw [if_pos hm, if_pos (List.mem_cons_of_mem _ hm)]
        · rw [if_neg hm, if_neg]
          intro hc
          rcases List.mem_cons.mp hc with he | hm2
          · exact h he.symm
          · exact hm hm2

theorem wlookup_self (w : WSeries) (hnd : (wkeys w).Nodup) :
    ∀ kv ∈ w, wlookup w kv.1 = some kv.2 := by
  induction w with
  | nil => intro kv h; cases h
  | cons x rest ih =>
      intro kv hkv
      simp only [wkeys, List.map_cons, List.nodup_cons] at hnd
      rcases List.mem_cons.mp hkv with h | h
      · subst h; rw [wlookup_cons, if_pos rfl]
      · rw [wlookup_cons, if_neg, ih hnd.2 kv h]
        intro he
        exact hnd.1 (he ▸ List.mem_map_of_mem Prod.fst h)

theorem wkeys_mapval (s : OSeries) (V : Asset → ℚ) :
    wkeys (s.map (fun kv => (kv.1, V kv.1))) = s.map Prod.fst := by
  simp [wkeys, List.map_map]

theorem wsum_mapval (s : OSeries) (V : Asset → ℚ) :
    wsum (s.map (fun kv => (kv.1, V kv.1))) = ((s.map Prod.fst).map V).sum := by
  simp [wsum, List.map_map]
  rfl

theorem olookup_mapval (cols : List Asset) (f : Asset → Option ℚ) (a : Asset) :
    olookup (cols.map (fun x => (x, f x))) a
      = if a ∈ cols then some (f a) else none := by
  induction cols with
  | nil => simp [olookup]
  | cons x rest ih =>
      by_cases h : x = a
      · subst h
        simp [olookup, List.find?_cons_of_pos]
      · have hstep : olookup ((x, f x) :: rest.map (fun y => (y, f y))) a
            = olookup (rest.map (fun y => (y, f y))) a := by
          simp [olookup, List.find?_cons_of_neg, h]
        rw [List.map_cons, hstep, ih]
        by_cases hm : a ∈ rest
        · rw [if_pos hm, if_pos (List.mem_cons_of_mem _ hm)]
        · rw [if_neg hm, if_neg]
          intro hc
          rcases List.mem_cons.mp hc with he | hm2
          · exact h he.symm
          · exact hm hm2

theorem sum_map_ite_mem (L sel : List Asset) (g : Asset → ℚ) (hL : L.Nodup)
    (hsel : sel.Nodup) (hsub : ∀ a ∈ sel, a ∈ L) :
    (L.map (fun a => if a ∈ sel then g a else 0)).sum = (sel.map g).sum := by
  rw [← List.sum_toFinset _ hL, ← List.sum_toFinset _ hsel]
  rw [← Finset.sum_filter]
  apply Finset.sum_congr _ (fun _ _ => rfl)
  ext a
  simp only [Finset.mem_filter, List.mem_toFinset]
  exact ⟨fun h => h.2, fun h => ⟨hsub a h, h⟩⟩

theorem sum_lookup_getD (L : List Asset) (w : WSeries) (hL : L.Nodup)
    (hk : (wkeys w).Nodup) (hsub : ∀ a ∈ wkeys w, a ∈ L) :
    (L.map (fun a => (wlookup w a).getD 0)).sum = wsum w := by
  have h1 : (L.map (fun a => (wlookup w a).getD 0))
      = L.map (fun a => if a ∈ wkeys w then (wlookup w a).getD 0 else 0) := by
    apply List.map_congr_left
    intro a _
    by_cases h : a ∈ wkeys w
    · rw [if_pos h]
    · rw [if_neg h, wlookup_eq_none w a h]
      rfl
  rw [h1, sum_map_ite_mem L (wkeys w) _ hL hk hsub]
  have h2 : (wkeys w).map (fun a => (wlookup w a).getD 0)
      = w.map Prod.snd := by
    simp only [wkeys, List.map_map]
    apply List.map_congr_left
    intro kv hkv
    simp [Function.comp, wlookup_self w hk kv hkv]
  rw [h2]
  rfl

theorem wsum_nonneg (w : WSeries) (h : ∀ kv ∈ w, 0 ≤ kv.2) : 0 ≤ wsum w := by
  induction w with
  | nil => simp [wsum]
  | cons kv rest ih =>
      have h1 := h kv (List.mem_cons_self kv rest)
      have h2 : 0 ≤ wsum rest := ih (fun x hx => h x (List.mem_cons_of_mem kv hx))
      simp only [wsum, List.map_cons, List.sum_cons] at h2 ⊢
      linarith

theorem single_le_wsum (w : WSeries) (h : ∀ kv ∈ w, 0 ≤ kv.2) :
    ∀ kv ∈ w, kv.2 ≤ wsum w := by
  induction w with
  | nil => intro kv hkv; cases hkv
  | cons x rest ih =>
      intro kv hkv
      have hx := h x (List.mem_cons_self x rest)
      have hrest : ∀ kv2 ∈ rest, 0 ≤ kv2.2 :=
        fun y hy => h y (List.mem_cons_of_mem x hy)
      have hrs : 0 ≤ wsum rest := wsum_nonneg rest hrest
      simp only [wsum, List.map_cons, List.sum_cons] at hrs ⊢
      rcases List.mem_cons.mp hkv with he | hm
      · subst he
        linarith
      · have := ih hrest kv hm
        simp only [wsum] at this
        linarith

theorem wsum_map_mul (w : WSeries) (c : ℚ) :
    wsum (w.map (fun kv => (kv.1, kv.2 * c))) = wsum w * c := by
  induction w with
  | nil => simp [wsum]
  | cons kv rest ih =>
      simp only [wsum, List.map_cons, List.sum_cons] at ih ⊢
      rw [ih]
      ring

theorem wsum_map_div (w : WSeries) (c : ℚ) :
    wsum (w.map (fun kv => (kv.1, kv.2 / c))) = wsum w / c := by
  induction w with
  | nil => simp [wsum]
  | cons kv rest ih =>
      simp only [wsum, List.map_cons, List.sum_cons] at ih ⊢
      rw [ih]
      ring

theorem sum_map_constQ (l : List Asset) (c : ℚ) :
    (l.map (fun _ => c)).sum = (l.length : ℚ) * c := by
  induction l with
  | nil => simp
  | cons x rest ih =>
      simp only [List.map_cons, List.sum_cons, List.length_cons, ih]
      push_cast
      ring

theorem sum_map_nonneg (l : List Asset) (g : Asset → ℚ)
    (h : ∀ b ∈ l, 0 ≤ g b) : 0 ≤ (l.map g).sum := by
  induction l with
  | nil => simp
  | cons x rest ih =>
      have hx := h x (List.mem_cons_self x rest)
      have h2 : 0 ≤ (rest.map g).sum :=
        ih (fun y hy => h y (List.mem_cons_of_mem x hy))
      simp only [List.map_cons, List.sum_cons]
      linarith

theorem single_le_sum_map (l : List Asset) (g : Asset → ℚ)
    (h : ∀ b ∈ l, 0 ≤ g b) : ∀ a ∈ l, g a ≤ (l.map g).sum := by
  induction l with
  | nil => intro a ha; cases ha
  | cons x rest ih =>
      intro a ha
      have hx := h x (List.mem_cons_self x rest)
      have hrest : ∀ b ∈ rest, 0 ≤ g b :=
        fun y hy => h y (List.mem_cons_of_mem x hy)
      have hrs : 0 ≤ (rest.map g).sum := sum_map_nonneg rest g hrest
      simp only [List.map_cons, List.sum_cons]
      rcases List.mem_cons.mp ha with he | hm
      · subst he; linarith
      · have := ih hrest a hm
        linarith

theorem sum_map_div_distrib (l : List Asset) (g : Asset → ℚ) (c : ℚ) :
    (l.map (fun a => g a / c)).sum = (l.map g).sum / c := by
  induction l with
  | nil => simp
  | cons x rest ih =>
      simp only [List.map_cons, List.sum_cons, ih]
      ring

theorem dropna_keys_sublist (s : OSeries) :
    ((dropna s).map Prod.fst).Sublist (s.map Prod.fst) := by
  induction s with
  | nil => simp [dropna]
  | cons kv rest ih =>
      cases h : kv.2 with
      | none => simpa [dropna, List.filterMap_cons, h] using ih.cons kv.1
      | some v => simpa [dropna, List.filterMap_cons, h] using ih.cons₂ kv.1

/-! ### Selection lemmas -/

theorem sortDesc_keys_perm (w : WSeries) :
    ((sortDesc w).map Prod.fst).Perm (w.map Prod.fst) :=
  (List.perm_insertionSort _ w).map Prod.fst

theorem sortAsc_keys_perm (w : WSeries) :
    ((sortAsc w).map Prod.fst).Perm (w.map Prod.fst) :=
  (List.perm_insertionSort _ w).map Prod.fst

theorem nlargestKeys_subset (n : ℕ) (w : WSeries) :
    ∀ a ∈ nlargestKeys n w, a ∈ w.map Prod.fst := by
  intro a ha
  rcases List.mem_map.mp ha with ⟨kv, hkv, he⟩
  exact he ▸ (sortDesc_keys_perm w).mem_iff.mp
    (List.mem_map_of_mem Prod.fst (List.take_subset n _ hkv))

theorem nsmallestKeys_subset (n : ℕ) (w : WSeries) :
    ∀ a ∈ nsmallestKeys n w, a ∈ w.map Prod.fst := by
  intro a ha
  rcases List.mem_map.mp ha with ⟨kv, hkv, he⟩
  exact he ▸ (sortAsc_keys_perm w).mem_iff.mp
    (List.mem_map_of_mem Prod.fst (List.take_subset n _ hkv))

theorem nlargestKeys_nodup (n : ℕ) (w : WSeries) (h : (w.map Prod.fst).Nodup) :
    (nlargestKeys n w).Nodup := by
  have h2 : ((sortDesc w).map Prod.fst).Nodup := ((sortDesc_keys_perm w).nodup_iff).mpr h
  have h3 : (nlargestKeys n w).Sublist ((sortDesc w).map Prod.fst) := by
    rw [nlargestKeys, List.map_take]
    exact List.take_sublist n _
  exact h3.nodup h2

theorem nsmallestKeys_nodup (n : ℕ) (w : WSeries) (h : (w.map Prod.fst).Nodup) :
    (nsmallestKeys n w).Nodup := by
  have h2 : ((sortAsc w).map Prod.fst).Nodup := ((sortAsc_keys_perm w).nodup_iff).mpr h
  have h3 : (nsmallestKeys n w).Sublist ((sortAsc w).map Prod.fst) := by
    rw [nsmallestKeys, List.map_take]
    exact List.take_sublist n _
  exact h3.nodup h2

theorem nlargestKeys_length (n : ℕ) (w : WSeries) :
    (nlargestKeys n w).length = min n w.length := by
  simp [nlargestKeys, sortDesc, List.length_insertionSort]

theorem nsmallestKeys_length (n : ℕ) (w : WSeries) :
    (nsmallestKeys n w).length = min n w.length := by
  simp [nsmallestKeys, sortAsc, List.length_insertionSort]

theorem actualTopN_le (top_n : Option ℕ) (len : ℕ) : actualTopN top_n len ≤ len := by
  cases top_n with
  | none => exact le_refl len
  | some n => exact min_le_right n len

theorem selectedTickers_subset (scores : OSeries) (top_n : Option ℕ) (asc : Bool) :
    ∀ a ∈ selectedTickers scores top_n asc, a ∈ scores.map Prod.fst := by
  intro a ha
  have hsub : a ∈ (dropna scores).map Prod.fst := by
    cases asc with
    | false => exact nlargestKeys_subset _ _ a (by simpa [selectedTickers] using ha)
    | true => exact nsmallestKeys_subset _ _ a (by simpa [selectedTickers] using ha)
  exact (dropna_keys_sublist scores).mem hsub

theorem selectedTickers_nodup (scores : OSeries) (top_n : Option ℕ) (asc : Bool)
    (hnd : (scores.map Prod.fst).Nodup) : (selectedTickers scores top_n asc).Nodup := by
  have hv : ((dropna scores).map Prod.fst).Nodup :=
    (dropna_keys_sublist scores).nodup hnd
  cases asc with
  | false => simpa [selectedTickers] using nlargestKeys_nodup _ _ hv
  | true => simpa [selectedTickers] using nsmallestKeys_nodup _ _ hv

theorem selectedTickers_length (scores : OSeries) (top_n : Option ℕ) (asc : Bool) :
    (selectedTickers scores top_n asc).length
      = actualTopN top_n (dropna scores).length := by
  have hle := actualTopN_le top_n (dropna scores).length
  cases asc with
  | false => simp [selectedTickers, nlargestKeys_length, Nat.min_eq_left hle]
  | true => simp [selectedTickers, nsmallestKeys_length, Nat.min_eq_left hle]

/-! ### Weighter normal forms -/

theorem equal_weight_eq (scores : OSeries) (top_n : Option ℕ) (asc : Bool)
    (h1 : (dropna scores).length ≠ 0)
    (h2 : actualTopN top_n (dropna scores).length ≠ 0) :
    equal_weight scores top_n asc
      = scores.map (fun kv => (kv.1,
          if kv.1 ∈ selectedTickers scores top_n asc
          then 1 / ((selectedTickers scores top_n asc).length : ℚ) else 0)) := by
  simp only [equal_weight, if_neg h1, if_neg h2]

theorem market_cap_weight_eq_pos (scores : OSeries) (top_n : Option ℕ)
    (mcap : OSeries) (asc : Bool)
    (h1 : (dropna scores).length ≠ 0)
    (h2 : actualTopN top_n (dropna scores).length ≠ 0)
    (h3 : ¬ ((selectedTickers scores top_n asc).map (mcapVal mcap)).sum ≤ 0) :
    market_cap_weight scores top_n mcap asc
      = scores.map (fun kv => (kv.1,
          if kv.1 ∈ selectedTickers scores top_n asc
          then mcapVal mcap kv.1 /
            ((selectedTickers scores top_n asc).map (mcapVal mcap)).sum else 0)) := by
  simp only [market_cap_weight, if_neg h1, if_neg h2, if_neg h3]

theorem market_cap_weight_eq_fallback (scores : OSeries) (top_n : Option ℕ)
    (mcap : OSeries) (asc : Bool)
    (h1 : (dropna scores).length ≠ 0)
    (h2 : actualTopN top_n (dropna scores).length ≠ 0)
    (h3 : ((selectedTickers scores top_n asc).map (mcapVal mcap)).sum ≤ 0) :
    market_cap_weight scores top_n mcap asc
      = scores.map (fun kv => (kv.1,
          if kv.1 ∈ selectedTickers scores top_n asc
          then 1 / ((selectedTickers scores top_n asc).length : ℚ) else 0)) := by
  simp only [market_cap_weight, if_neg h1, if_neg h2, if_pos h3]

theorem setWeights_of_zero (b : WSeries) (hb : ∀ kv ∈ b, kv.2 = 0)
    (keys : List Asset) (v : ℚ) :
    setWeights b keys v
      = b.map (fun kv => (kv.1, if kv.1 ∈ keys then v else 0)) := by
  apply List.map_congr_left
  intro kv hkv
  by_cases h : kv.1 ∈ keys
  · simp [h]
  · simp [h, ← hb kv hkv]

theorem setWeightsBy_of_zero (b : WSeries) (hb : ∀ kv ∈ b, kv.2 = 0)
    (f : Asset → Option ℚ) :
    setWeightsBy b f = b.map (fun kv => (kv.1, (f kv.1).getD 0)) := by
  apply List.map_congr_left
  intro kv hkv
  cases h : f kv.1 with
  | none => simp [setWeightsBy, h, ← hb kv hkv]
  | some v => simp [setWeightsBy, h]

theorem wkeys_map_key (b : WSeries) (V : Asset → ℚ) :
    wkeys (b.map (fun kv => (kv.1, V kv.1))) = wkeys b := by
  simp [wkeys, List.map_map]

theorem wsum_map_key (b : WSeries) (V : Asset → ℚ) :
    wsum (b.map (fun kv => (kv.1, V kv.1))) = ((wkeys b).map V).sum := by
  simp [wsum, wkeys, List.map_map]
  rfl

theorem oseries_mapval_eq_keyform (s : OSeries) (V : Asset → ℚ) :
    s.map (fun kv => (kv.1, V kv.1)) = (s.map Prod.fst).map (fun a => (a, V a)) := by
  rw [List.map_map]
  rfl

theorem wseries_mapval_eq_keyform (b : WSeries) (V : Asset → ℚ) :
    b.map (fun kv => (kv.1, V kv.1)) = (wkeys b).map (fun a => (a, V a)) := by
  rw [wkeys, List.map_map]
  rfl

theorem wkeys_keyform (K : List Asset) (V : Asset → ℚ) :
    wkeys (K.map (fun a => (a, V a))) = K := by
  rw [wkeys, List.map_map]
  exact List.map_id K

theorem wsum_keyform (K : List Asset) (V : Asset → ℚ) :
    wsum (K.map (fun a => (a, V a))) = (K.map V).sum := by
  simp [wsum, List.map_map]
  rfl

theorem wlookup_keyform (K : List Asset) (V : Asset → ℚ) (a : Asset) :
    wlookup (K.map (fun x => (x, V x))) a = if a ∈ K then some (V a) else none := by
  have h := wlookup_mapval (K.map (fun x => (x, (none : Option ℚ)))) V a
  simp only [List.map_map] at h
  have he : ((fun kv : Asset × Option ℚ => (kv.1, V kv.1)) ∘ fun x => (x, (none : Option ℚ)))
      = fun x => (x, V x) := rfl
  have he2 : (Prod.fst ∘ fun x : Asset => (x, (none : Option ℚ))) = id := rfl
  rw [he, he2, List.map_id] at h
  exact h

/-- Invariant bundle for a weight series of the shape
`index.map (a ↦ (a, if a ∈ sel then g a else 0))`. -/
theorem keyform_OK (K sel : List Asset) (g : Asset → ℚ)
    (hK : K.Nodup) (hselnd : sel.Nodup) (hsub : ∀ a ∈ sel, a ∈ K)
    (hbound : ∀ a ∈ sel, 0 ≤ g a ∧ g a ≤ 1) (hsum : (sel.map g).sum = 1) :
    (∀ kv ∈ K.map (fun a => (a, if a ∈ sel then g a else 0)), 0 ≤ kv.2 ∧ kv.2 ≤ 1) ∧
    wkeys (K.map (fun a => (a, if a ∈ sel then g a else 0))) = K ∧
    wsum (K.map (fun a => (a, if a ∈ sel then g a else 0))) = 1 := by
  refine ⟨?_, wkeys_keyform K _, ?_⟩
  · intro kv hkv
    rcases List.mem_map.mp hkv with ⟨a, ha, he⟩
    subst he
    by_cases h : a ∈ sel
    · simpa [h] using hbound a h
    · simp [h]
  · rw [wsum_keyform, sum_map_ite_mem K sel g hK hselnd hsub, hsum]

/-- Invariant bundle for a weight series assembled by looking positions up in
an inner series `z` (the optimizer-output form). -/
theorem keyform_lookup_OK (K : List Asset) (z : WSeries)
    (hK : K.Nodup) (hznd : (wkeys z).Nodup) (hzsub : ∀ a ∈ wkeys z, a ∈ K)
    (hbound : ∀ kv ∈ z, 0 ≤ kv.2 ∧ kv.2 ≤ 1) (hzsum : wsum z = 1) :
    (∀ kv ∈ K.map (fun a => (a, (wlookup z a).getD 0)), 0 ≤ kv.2 ∧ kv.2 ≤ 1) ∧
    wkeys (K.map (fun a => (a, (wlookup z a).getD 0))) = K ∧
    wsum (K.map (fun a => (a, (wlookup z a).getD 0))) = 1 := by
  refine ⟨?_, wkeys_keyform K _, ?_⟩
  · intro kv hkv
    rcases List.mem_map.mp hkv with ⟨a, ha, he⟩
    subst he
    cases hz : wlookup z a with
    | none => simp
    | some v =>
        rcases Option.map_eq_some'.mp hz with ⟨kv2, hfind, hv⟩
        have hmem : kv2 ∈ z := List.mem_of_find?_eq_some hfind
        simpa [hz, ← hv] using hbound kv2 hmem
  · rw [wsum_keyform, sum_lookup_getD K z hK hznd hzsub, hzsum]

theorem equal_weight_OK (scores : OSeries) (top_n : Option ℕ) (asc : Bool)
    (hnd : (scores.map Prod.fst).Nodup)
    (h1 : (dropna scores).length ≠ 0)
    (h2 : actualTopN top_n (dropna scores).length ≠ 0) :
    (∀ kv ∈ equal_weight scores top_n asc, 0 ≤ kv.2 ∧ kv.2 ≤ 1) ∧
    wkeys (equal_weight scores top_n asc) = scores.map Prod.fst ∧
    wsum (equal_weight scores top_n asc) = 1 := by
  have hlen : (selectedTickers scores top_n asc).length ≠ 0 := by
    rw [selectedTickers_length]; exact h2
  have hkpos : (0:ℚ) < ((selectedTickers scores top_n asc).length : ℚ) := by
    exact_mod_cast Nat.pos_of_ne_zero hlen
  have hone : (1:ℚ) ≤ ((selectedTickers scores top_n asc).length : ℚ) := by
    exact_mod_cast Nat.one_le_iff_ne_zero.mpr hlen
  have hdle : (1:ℚ) / ((selectedTickers scores top_n asc).length : ℚ) ≤ 1 := by
    rw [div_le_one hkpos]; exact hone
  have hsum1 : ((selectedTickers scores top_n asc).map
      (fun _ => 1 / ((selectedTickers scores top_n asc).length : ℚ))).sum = 1 := by
    rw [sum_map_constQ]
    field_simp
  rw [equal_weight_eq scores top_n asc h1 h2,
    oseries_mapval_eq_keyform scores (fun a =>
      if a ∈ selectedTickers scores top_n asc
      then 1 / ((selectedTickers scores top_n asc).length : ℚ) else 0)]
  exact keyform_OK (scores.map Prod.fst) (selectedTickers scores top_n asc)
    (fun _ => 1 / ((selectedTickers scores top_n asc).length : ℚ))
    hnd (selectedTickers_nodup scores top_n asc hnd)
    (selectedTickers_subset scores top_n asc)
    (fun a _ => ⟨by positivity, hdle⟩) hsum1

theorem market_cap_weight_OK (scores : OSeries) (top_n : Option ℕ)
    (mcap : OSeries) (asc : Bool)
    (hnd : (scores.map Prod.fst).Nodup)
    (h1 : (dropna scores).length ≠ 0)
    (h2 : actualTopN top_n (dropna scores).length ≠ 0)
    (hmc : ∀ a, 0 ≤ mcapVal mcap a) :
    (∀ kv ∈ market_cap_weight scores top_n mcap asc, 0 ≤ kv.2 ∧ kv.2 ≤ 1) ∧
    wkeys (market_cap_weight scores top_n mcap asc) = scores.map Prod.fst ∧
    wsum (market_cap_weight scores top_n mcap asc) = 1 := by
  have hlen : (selectedTickers scores top_n asc).length ≠ 0 := by
    rw [selectedTickers_length]; exact h2
  have hkpos : (0:ℚ) < ((selectedTickers scores top_n asc).length : ℚ) := by
    exact_mod_cast Nat.pos_of_ne_zero hlen
  have hone : (1:ℚ) ≤ ((selectedTickers scores top_n asc).length : ℚ) := by
    exact_mod_cast Nat.one_le_iff_ne_zero.mpr hlen
  have hdle : (1:ℚ) / ((selectedTickers scores top_n asc).length : ℚ) ≤ 1 := by
    rw [div_le_one hkpos]; exact hone
  have hsum1 : ((selectedTickers scores top_n asc).map
      (fun _ => 1 / ((selectedTickers scores top_n asc).length : ℚ))).sum = 1 := by
    rw [sum_map_constQ]
    field_simp
  by_cases h3 : ((selectedTickers scores top_n asc).map (mcapVal mcap)).sum ≤ 0
  · rw [market_cap_weight_eq_fallback scores top_n mcap asc h1 h2 h3,
      oseries_mapval_eq_keyform scores (fun a =>
        if a ∈ selectedTickers scores top_n asc
        then 1 / ((selectedTickers scores top_n asc).length : ℚ) else 0)]
    exact keyform_OK (scores.map Prod.fst) (selectedTickers scores top_n asc)
      (fun _ => 1 / ((selectedTickers scores top_n asc).length : ℚ))
      hnd (selectedTickers_nodup scores top_n asc hnd)
      (selectedTickers_subset scores top_n asc)
      (fun a _ => ⟨by positivity, hdle⟩) hsum1
  · have htot : 0 < ((selectedTickers scores top_n asc).map (mcapVal mcap)).sum :=
      lt_of_not_le h3
    rw [market_cap_weight_eq_pos scores top_n mcap asc h1 h2 h3,
      oseries_mapval_eq_keyform scores (fun a =>
        if a ∈ selectedTickers scores top_n asc
        then mcapVal mcap a /
          ((selectedTickers scores top_n asc).map (mcapVal mcap)).sum else 0)]
    refine keyform_OK (scores.map Prod.fst) (selectedTickers scores top_n asc)
      (fun a => mcapVal mcap a /
        ((selectedTickers scores top_n asc).map (mcapVal mcap)).sum)
      hnd (selectedTickers_nodup scores top_n asc hnd)
      (selectedTickers_subset scores top_n asc) ?_ ?_
    · intro a ha
      constructor
      · exact div_nonneg (hmc a) (le_of_lt htot)
      · rw [div_le_one htot]
        exact single_le_sum_map _ (mcapVal mcap) (fun b _ => hmc b) a ha
    · rw [sum_map_div_distrib, div_self (ne_of_gt htot)]

theorem wkeys_map_snd (w : WSeries) (f : Asset × ℚ → ℚ) :
    wkeys (w.map (fun kv => (kv.1, f kv))) = wkeys w := by
  rw [wkeys, wkeys, List.map_map]
  rfl

/-- Invariant bundle for the equal-weight fallback `weights[S] = 1/len(S)`
over a zero base series. -/
theorem fallback_OK (b : WSeries) (S : List Asset)
    (hb : ∀ kv ∈ b, kv.2 = 0) (hbk : (wkeys b).Nodup)
    (hSsub : ∀ a ∈ S, a ∈ wkeys b) (hSnd : S.Nodup) (hSne : S.length ≠ 0) :
    (∀ kv ∈ setWeights b S (1 / (S.length : ℚ)), 0 ≤ kv.2 ∧ kv.2 ≤ 1) ∧
    wkeys (setWeights b S (1 / (S.length : ℚ))) = wkeys b ∧
    wsum (setWeights b S (1 / (S.length : ℚ))) = 1 := by
  have hkpos : (0:ℚ) < (S.length : ℚ) := by
    exact_mod_cast Nat.pos_of_ne_zero hSne
  have hone : (1:ℚ) ≤ (S.length : ℚ) := by
    exact_mod_cast Nat.one_le_iff_ne_zero.mpr hSne
  have hdle : (1:ℚ) / (S.length : ℚ) ≤ 1 := by
    rw [div_le_one hkpos]; exact hone
  have hsum1 : (S.map (fun _ => 1 / (S.length : ℚ))).sum = 1 := by
    rw [sum_map_constQ]
    field_simp
  rw [setWeights_of_zero b hb S _,
    wseries_mapval_eq_keyform b (fun a => if a ∈ S then 1 / (S.length : ℚ) else 0)]
  exact keyform_OK (wkeys b) S (fun _ => 1 / (S.length : ℚ)) hbk hSnd hSsub
    (fun a _ => ⟨by positivity, hdle⟩) hsum1

/-- Invariant bundle for `minimum_variance_weight`'s shared body: every branch
produces weights in `[0,1]` over the base index summing to `1`. -/
theorem minVarCore_OK (solver : Solver) (eigCheck : EigCheck) (sel : List Asset)
    (b : WSeries) (price : Frame) (d : Date) (lb : ℕ)
    (hs : GoodSolver solver)
    (hb : ∀ kv ∈ b, kv.2 = 0)
    (hbk : (wkeys b).Nodup)
    (hsub : ∀ a ∈ sel, a ∈ wkeys b)
    (hselnd : sel.Nodup)
    (hne : sel.length ≠ 0) :
    (∀ kv ∈ minVarCore solver eigCheck sel b price d lb, 0 ≤ kv.2 ∧ kv.2 ≤ 1) ∧
    wkeys (minVarCore solver eigCheck sel b price d lb) = wkeys b ∧
    wsum (minVarCore solver eigCheck sel b price d lb) = 1 := by
  have havnd : (availableTickers price (lookbackRows price d lb) sel).Nodup :=
    hselnd.filter _
  have havsub : ∀ a ∈ availableTickers price (lookbackRows price d lb) sel,
      a ∈ wkeys b :=
    fun a ha => hsub a (List.mem_of_mem_filter ha)
  simp only [minVarCore]
  split_ifs with h1 h2 h3 h4
  · exact fallback_OK b sel hb hbk hsub hselnd hne
  · exact fallback_OK b sel hb hbk hsub hselnd hne
  · exact fallback_OK b sel hb hbk hsub hselnd hne
  · -- solver success: the optimizer output is written per available ticker
    have hspec := hs _ _ _ h4
    have hxlen := hspec.1
    have hxbound := hspec.2.1
    have hxsum := hspec.2.2
    have hle : (availableTickers price (lookbackRows price d lb) sel).length
        ≤ (solver _ _ _).x.length := le_of_eq hxlen.symm
    have hfst : ((availableTickers price (lookbackRows price d lb) sel).zip
        (solver _ _ _).x).map Prod.fst
        = availableTickers price (lookbackRows price d lb) sel :=
      List.map_fst_zip _ _ hle
    have hsnd : ((availableTickers price (lookbackRows price d lb) sel).zip
        (solver _ _ _).x).map Prod.snd = (solver _ _ _).x :=
      List.map_snd_zip _ _ (le_of_eq hxlen)
    rw [setWeightsBy_of_zero b hb,
      wseries_mapval_eq_keyform b (fun a =>
        ((((availableTickers price (lookbackRows price d lb) sel).zip
          (solver _ _ _).x).find? (fun p => p.1 == a)).map Prod.snd).getD 0)]
    refine keyform_lookup_OK (wkeys b)
      ((availableTickers price (lookbackRows price d lb) sel).zip (solver _ _ _).x)
      hbk ?_ ?_ ?_ ?_
    · show (((availableTickers price (lookbackRows price d lb) sel).zip
        (solver _ _ _).x).map Prod.fst).Nodup
      rw [hfst]; exact havnd
    · intro a ha
      have : a ∈ availableTickers price (lookbackRows price d lb) sel := by
        have := ha
        rw [wkeys, hfst] at this
        exact this
      exact havsub a this
    · intro kv hkv
      exact hxbound kv.2 (List.of_mem_zip hkv).2
    · show ((((availableTickers price (lookbackRows price d lb) sel).zip
        (solver _ _ _).x).map Prod.snd)).sum = 1
      rw [hsnd]; exact hxsum
  · -- optimizer failure: equal weight over the available tickers
    have havne : (availableTickers price (lookbackRows price d lb) sel).length ≠ 0 := by
      omega
    exact fallback_OK b _ hb hbk havsub havnd havne

/-- Branch equations of the volatility overlay: any of the five no-op
conditions returns the input unchanged. -/
theorem vsw_eq_unchanged (sq : ℚ → ℚ) (w : WSeries) (price : Frame) (d : Date)
    (tv : ℚ) (lb : ℕ)
    (h : wsum w = 0 ∨ (lookbackRows price d lb).length < 2 ∨
      (vsRet price d lb).length = 0 ∨
      (vsCommon w (vsCols price (lookbackRows price d lb))).length = 0 ∨
      vsCvol sq w price d lb = 0) :
    volatility_scaling_weight sq w price d tv lb = w := by
  simp only [vsRet, vsCvol, vsPvar] at h
  simp only [volatility_scaling_weight]
  by_cases c1 : wsum w = 0
  · rw [if_pos c1]
  · rw [if_neg c1]
    by_cases c2 : (lookbackRows price d lb).length < 2
    · rw [if_pos c2]
    · rw [if_neg c2]
      by_cases c3 : (returnRows price (lookbackRows price d lb)
          (vsCols price (lookbackRows price d lb))).length = 0
      · rw [if_pos c3]
      · rw [if_neg c3]
        by_cases c4 : (vsCommon w (vsCols price (lookbackRows price d lb))).length = 0
        · rw [if_pos c4]
        · rw [if_neg c4]
          rcases h with h | h | h | h | h
          · exact absurd h c1
          · exact absurd h c2
          · exact absurd h c3
          · exact absurd h c4
          · rw [if_pos h]

/-- Branch equation of the volatility overlay: outside the no-op conditions it
scales by `target/current` and renormalizes only when the scaled sum
exceeds 1. -/
theorem vsw_eq_scaled (sq : ℚ → ℚ) (w : WSeries) (price : Frame) (d : Date)
    (tv : ℚ) (lb : ℕ)
    (h1 : ¬ wsum w = 0) (h2 : ¬ (lookbackRows price d lb).length < 2)
    (h3 : ¬ (vsRet price d lb).length = 0)
    (h4 : ¬ (vsCommon w (vsCols price (lookbackRows price d lb))).length = 0)
    (h5 : ¬ vsCvol sq w price d lb = 0) :
    volatility_scaling_weight sq w price d tv lb
      = if 1 < wsum (vsScaled sq w price d tv lb)
        then (vsScaled sq w price d tv lb).map
          (fun kv => (kv.1, kv.2 / wsum (vsScaled sq w price d tv lb)))
        else vsScaled sq w price d tv lb := by
  simp only [vsRet, vsCvol, vsPvar] at h3 h5
  simp only [volatility_scaling_weight, vsScaled, vsCvol, vsPvar, vsRet]
  rw [if_neg h1, if_neg h2, if_neg h3, if_neg h4, if_neg h5]

/-- Invariant bundle for the volatility-targeting overlay: index preserved,
weights stay in `[0,1]`, the row sum stays in `[0,1]` and vanishes exactly
when the input row sum does. -/
theorem volatility_scaling_OK (sq : ℚ → ℚ) (hq : GoodSq sq) (w : WSeries)
    (price : Frame) (d : Date) (tv : ℚ) (lb : ℕ) (htv : 0 < tv)
    (hvals : ∀ kv ∈ w, 0 ≤ kv.2 ∧ kv.2 ≤ 1) (hsum : wsum w ≤ 1) :
    (∀ kv ∈ volatility_scaling_weight sq w price d tv lb, 0 ≤ kv.2 ∧ kv.2 ≤ 1) ∧
    wkeys (volatility_scaling_weight sq w price d tv lb) = wkeys w ∧
    (wsum (volatility_scaling_weight sq w price d tv lb) = 0 ↔ wsum w = 0) ∧
    0 ≤ wsum (volatility_scaling_weight sq w price d tv lb) ∧
    wsum (volatility_scaling_weight sq w price d tv lb) ≤ 1 := by
  have hnn : 0 ≤ wsum w := wsum_nonneg w (fun kv hkv => (hvals kv hkv).1)
  by_cases h1 : wsum w = 0
  · rw [vsw_eq_unchanged sq w price d tv lb (Or.inl h1)]
    exact ⟨hvals, rfl, Iff.rfl, hnn, hsum⟩
  by_cases h2 : (lookbackRows price d lb).length < 2
  · rw [vsw_eq_unchanged sq w price d tv lb (Or.inr (Or.inl h2))]
    exact ⟨hvals, rfl, Iff.rfl, hnn, hsum⟩
  by_cases h3 : (vsRet price d lb).length = 0
  · rw [vsw_eq_unchanged sq w price d tv lb (Or.inr (Or.inr (Or.inl h3)))]
    exact ⟨hvals, rfl, Iff.rfl, hnn, hsum⟩
  by_cases h4 : (vsCommon w (vsCols price (lookbackRows price d lb))).length = 0
  · rw [vsw_eq_unchanged sq w price d tv lb (Or.inr (Or.inr (Or.inr (Or.inl h4))))]
    exact ⟨hvals, rfl, Iff.rfl, hnn, hsum⟩
  by_cases h5 : vsCvol sq w price d lb = 0
  · rw [vsw_eq_unchanged sq w price d tv lb (Or.inr (Or.inr (Or.inr (Or.inr h5))))]
    exact ⟨hvals, rfl, Iff.rfl, hnn, hsum⟩
  -- scaling path
  have hpv : 0 < vsPvar w price d lb := by
    by_contra hc
    exact h5 (if_neg hc)
  have hcv : vsCvol sq w price d lb = sq (vsPvar w price d lb) := if_pos hpv
  have hcpos : 0 < vsCvol sq w price d lb := by
    rw [hcv]; exact hq _ hpv
  have hfpos : 0 < tv / vsCvol sq w price d lb := div_pos htv hcpos
  have hssum : wsum (vsScaled sq w price d tv lb)
      = wsum w * (tv / vsCvol sq w price d lb) := wsum_map_mul w _
  have hsnn : ∀ kv ∈ vsScaled sq w price d tv lb, 0 ≤ kv.2 := by
    intro kv hkv
    rcases List.mem_map.mp hkv with ⟨kv0, h0, he⟩
    subst he
    exact mul_nonneg (hvals kv0 h0).1 (le_of_lt hfpos)
  have hkeq : wkeys (vsScaled sq w price d tv lb) = wkeys w := wkeys_map_snd w _
  rw [vsw_eq_scaled sq w price d tv lb h1 h2 h3 h4 h5]
  by_cases hnorm : 1 < wsum (vsScaled sq w price d tv lb)
  · have hSpos : (0:ℚ) < wsum (vsScaled sq w price d tv lb) := lt_trans one_pos hnorm
    rw [if_pos hnorm]
    refine ⟨?_, ?_, ?_, ?_, ?_⟩
    · intro kv hkv
      rcases List.mem_map.mp hkv with ⟨kv0, h0, he⟩
      subst he
      refine ⟨div_nonneg (hsnn kv0 h0) (le_of_lt hSpos), ?_⟩
      rw [div_le_one hSpos]
      exact single_le_wsum _ hsnn kv0 h0
    · rw [wkeys_map_snd, hkeq]
    · rw [wsum_map_div, div_self (ne_of_gt hSpos)]
      exact ⟨fun h => absurd h one_ne_zero, fun h => absurd h h1⟩
    · rw [wsum_map_div]
      positivity
    · rw [wsum_map_div, div_self (ne_of_gt hSpos)]
  · rw [if_neg hnorm]
    refine ⟨?_, hkeq, ?_, ?_, le_of_not_lt hnorm⟩
    · intro kv hkv
      exact ⟨hsnn kv hkv, le_trans (single_le_wsum _ hsnn kv hkv) (le_of_not_lt hnorm)⟩
    · rw [hssum]
      constructor
      · intro h
        rcases mul_eq_zero.mp h with h | h
        · exact h
        · exact absurd h (ne_of_gt hfpos)
      · intro h
        exact absurd h h1
    · exact wsum_nonneg _ hsnn


/-! ### Rebalance map lemmas -/

theorem rebalFold_no_match (d : Date) (ps : List (Date × Date)) (acc : Option Date)
    (h : ∀ p ∈ ps, ¬ (p.1 ≤ d ∧ d < p.2)) :
    ps.foldl (fun acc p => if p.1 ≤ d ∧ d < p.2 then some p.1 else acc) acc = acc := by
  induction ps generalizing acc with
  | nil => rfl
  | cons p rest ih =>
      rw [List.foldl_cons, if_neg (h p (List.mem_cons_self p rest))]
      exact ih acc (fun q hq => h q (List.mem_cons_of_mem p hq))

theorem rebalFold_acc_irrel (d : Date) (ps : List (Date × Date))
    (h : ∃ p ∈ ps, p.1 ≤ d ∧ d < p.2) (acc1 acc2 : Option Date) :
    ps.foldl (fun acc p => if p.1 ≤ d ∧ d < p.2 then some p.1 else acc) acc1
      = ps.foldl (fun acc p => if p.1 ≤ d ∧ d < p.2 then some p.1 else acc) acc2 := by
  induction ps generalizing acc1 acc2 with
  | nil =>
      rcases h with ⟨p, hp, _⟩
      cases hp
  | cons p rest ih =>
      rw [List.foldl_cons, List.foldl_cons]
      by_cases hp : p.1 ≤ d ∧ d < p.2
      · rw [if_pos hp, if_pos hp]
      · rw [if_neg hp, if_neg hp]
        rcases h with ⟨q, hq, hqm⟩
        rcases List.mem_cons.mp hq with he | hm
        · exact absurd (he ▸ hqm) hp
        · exact ih ⟨q, hm, hqm⟩ acc1 acc2

/-- Core scheduling fact: when the anchors are strictly sorted, the source's
masked-assignment loop sends every anchor to itself. -/
theorem rebalMap_self (anchors : List Date) (hsort : List.Sorted (· < ·) anchors) :
    ∀ d ∈ anchors, rebalMap anchors d = some d := by
  induction anchors with
  | nil => intro d hd; cases hd
  | cons a rest ih =>
      intro d hd
      cases rest with
      | nil =>
          rcases List.mem_cons.mp hd with he | hm
          · subst he
            simp [rebalMap]
          · cases hm
      | cons b rest2 =>
          have hchain := List.sorted_cons.mp hsort
          have hrest : List.Sorted (· < ·) (b :: rest2) := hchain.2
          have hL := List.getLast?_eq_getLast (b :: rest2) (by simp)
          have hLmem : (b :: rest2).getLast (by simp) ∈ b :: rest2 :=
            List.getLast_mem (by simp)
          rcases List.mem_cons.mp hd with he | hm
          · subst he
            have haL : d < (b :: rest2).getLast (by simp) := hchain.1 _ hLmem
            have hnomatch : ∀ p ∈ ((b :: rest2).zip rest2),
                ¬ (p.1 ≤ d ∧ d < p.2) := by
              intro p hp hc
              have hp1 : p.1 ∈ b :: rest2 := (List.of_mem_zip hp).1
              have : d < p.1 := hchain.1 _ hp1
              exact absurd hc.1 (not_le_of_lt this)
            show rebalMap (d :: b :: rest2) d = some d
            rw [rebalMap]
            simp only [List.tail_cons, List.zip_cons_cons, List.getLast?_cons_cons, hL]
            rw [if_neg (not_le_of_lt haL)]
            rw [List.foldl_cons, if_pos ⟨le_refl d, hchain.1 b (List.mem_cons_self b rest2)⟩]
            exact rebalFold_no_match d _ _ hnomatch
          · have hihd := ih hrest d hm
            show rebalMap (a :: b :: rest2) d = some d
            rw [rebalMap] at hihd ⊢
            simp only [List.tail_cons, List.zip_cons_cons, List.getLast?_cons_cons, hL] at hihd ⊢
            by_cases hLd : (b :: rest2).getLast (by simp) ≤ d
            · rw [if_pos hLd] at hihd ⊢
              exact hihd
            · rw [if_neg hLd] at hihd ⊢
              have hexists : ∃ p ∈ ((b :: rest2).zip rest2), p.1 ≤ d ∧ d < p.2 := by
                by_contra hc
                push_neg at hc
                have := rebalFold_no_match d ((b :: rest2).zip rest2) none
                  (by intro p hp; have := hc p hp; intro hand; exact absurd hand.2 (not_lt_of_le (this hand.1)))
                rw [this] at hihd
                cases hihd
              rw [List.foldl_cons, if_neg]
              · rw [rebalFold_acc_irrel d _ hexists _ none]
                exact hihd
              · intro hand
                have hbd : b ≤ d := by
                  rcases List.mem_cons.mp hm with he2 | hm2
                  · exact le_of_eq he2.symm
                  · exact le_of_lt ((List.sorted_cons.mp hrest).1 d hm2)
                exact absurd hand.2 (not_lt_of_le hbd)

theorem anchors_sorted_le (fd : List Date) :
    List.Sorted (fun x y : Date => x ≤ y) (rebalanceDates fd) :=
  List.sorted_insertionSort _ fd

theorem anchors_perm (fd : List Date) : (rebalanceDates fd).Perm fd :=
  List.perm_insertionSort _ fd

theorem anchors_sorted_lt (fd : List Date) (hnd : fd.Nodup) :
    List.Sorted (· < ·) (rebalanceDates fd) := by
  have hs := anchors_sorted_le fd
  have hn : (rebalanceDates fd).Nodup := ((anchors_perm fd).nodup_iff).mpr hnd
  exact (List.Pairwise.and hs hn).imp (fun h => lt_of_le_of_ne h.1 h.2)

/-- Every filtered date is its own rebalance anchor (the anchors are exactly
the filtered dates). -/
theorem rebalMap_anchor (price : Frame) (s e : Date)
    (hnd : (filteredDates price s e).Nodup) :
    ∀ d ∈ filteredDates price s e, rebalMap (anchorsOf price s e) d = some d := by
  intro d hd
  exact rebalMap_self (anchorsOf price s e)
    (anchors_sorted_lt _ hnd) d ((anchors_perm _).mem_iff.mpr hd)


/-! ### Guard and list-shape weighter lemmas -/

theorem actualTopN_of_len_zero (top_n : Option ℕ) : actualTopN top_n 0 = 0 := by
  cases top_n with
  | none => rfl
  | some n => exact Nat.min_eq_right (Nat.zero_le n)

theorem selectedTickers_eq_nil_iff (scores : OSeries) (top_n : Option ℕ) (asc : Bool) :
    selectedTickers scores top_n asc = []
      ↔ actualTopN top_n (dropna scores).length = 0 := by
  rw [← List.length_eq_zero, selectedTickers_length]

theorem equal_weight_eq_nil (scores : OSeries) (top_n : Option ℕ) (asc : Bool)
    (h : actualTopN top_n (dropna scores).length = 0) :
    equal_weight scores top_n asc = [] := by
  by_cases h1 : (dropna scores).length = 0
  · simp [equal_weight, h1]
  · simp [equal_weight, h1, h]

theorem market_cap_weight_eq_nil (scores : OSeries) (top_n : Option ℕ)
    (mcap : OSeries) (asc : Bool)
    (h : actualTopN top_n (dropna scores).length = 0) :
    market_cap_weight scores top_n mcap asc = [] := by
  by_cases h1 : (dropna scores).length = 0
  · simp [market_cap_weight, h1]
  · simp [market_cap_weight, h1, h]

theorem minimum_variance_weight_eq_nil (solver : Solver) (eigCheck : EigCheck)
    (scores : OSeries) (top_n : Option ℕ) (price : Frame) (d : Date) (lb : ℕ)
    (asc : Bool) (h : actualTopN top_n (dropna scores).length = 0) :
    minimum_variance_weight solver eigCheck scores top_n price d lb asc = [] := by
  by_cases h1 : (dropna scores).length = 0
  · simp [minimum_variance_weight, h1]
  · simp [minimum_variance_weight, h1, h]

theorem minimum_variance_weight_eq_core (solver : Solver) (eigCheck : EigCheck)
    (scores : OSeries) (top_n : Option ℕ) (price : Frame) (d : Date) (lb : ℕ)
    (asc : Bool) (h1 : (dropna scores).length ≠ 0)
    (h2 : actualTopN top_n (dropna scores).length ≠ 0) :
    minimum_variance_weight solver eigCheck scores top_n price d lb asc
      = minVarCore solver eigCheck (selectedTickers scores top_n asc)
          (scores.map (fun kv => (kv.1, 0))) price d lb := by
  simp only [minimum_variance_weight, if_neg h1, if_neg h2]

theorem minimum_variance_weight_OK (solver : Solver) (eigCheck : EigCheck)
    (scores : OSeries) (top_n : Option ℕ) (price : Frame) (d : Date) (lb : ℕ)
    (asc : Bool) (hs : GoodSolver solver)
    (hnd : (scores.map Prod.fst).Nodup)
    (h1 : (dropna scores).length ≠ 0)
    (h2 : actualTopN top_n (dropna scores).length ≠ 0) :
    (∀ kv ∈ minimum_variance_weight solver eigCheck scores top_n price d lb asc,
      0 ≤ kv.2 ∧ kv.2 ≤ 1) ∧
    wkeys (minimum_variance_weight solver eigCheck scores top_n price d lb asc)
      = scores.map Prod.fst ∧
    wsum (minimum_variance_weight solver eigCheck scores top_n price d lb asc) = 1 := by
  have hkeys : wkeys (scores.map (fun kv => (kv.1, (0:ℚ)))) = scores.map Prod.fst :=
    wkeys_mapval scores (fun _ => 0)
  have hb : ∀ kv ∈ scores.map (fun kv => (kv.1, (0:ℚ))), kv.2 = 0 := by
    intro kv hkv
    rcases List.mem_map.mp hkv with ⟨kv0, _, he⟩
    exact he ▸ rfl
  have hlen : (selectedTickers scores top_n asc).length ≠ 0 := by
    rw [selectedTickers_length]; exact h2
  rw [minimum_variance_weight_eq_core solver eigCheck scores top_n price d lb asc h1 h2]
  have h := minVarCore_OK solver eigCheck (selectedTickers scores top_n asc)
    (scores.map (fun kv => (kv.1, 0))) price d lb hs hb
    (by rw [hkeys]; exact hnd)
    (by intro a ha; rw [hkeys]; exact selectedTickers_subset scores top_n asc a ha)
    (selectedTickers_nodup scores top_n asc hnd) hlen
  refine ⟨h.1, ?_, h.2.2⟩
  rw [h.2.1, hkeys]

theorem equal_weight_list_OK (tickers : List Asset) (_hnd : tickers.Nodup)
    (hne : tickers.length ≠ 0) :
    equal_weight_list tickers
      = some (tickers.map (fun a => (a, 1 / (tickers.length : ℚ)))) ∧
    (∀ kv ∈ (equal_weight_list tickers).getD [], 0 ≤ kv.2 ∧ kv.2 ≤ 1) ∧
    wkeys ((equal_weight_list tickers).getD []) = tickers ∧
    wsum ((equal_weight_list tickers).getD []) = 1 := by
  have heq : equal_weight_list tickers
      = some (tickers.map (fun a => (a, 1 / (tickers.length : ℚ)))) := by
    simp [equal_weight_list, hne]
  have hkpos : (0:ℚ) < (tickers.length : ℚ) := by
    exact_mod_cast Nat.pos_of_ne_zero hne
  have hone : (1:ℚ) ≤ (tickers.length : ℚ) := by
    exact_mod_cast Nat.one_le_iff_ne_zero.mpr hne
  refine ⟨heq, ?_, ?_, ?_⟩
  · intro kv hkv
    rw [heq] at hkv
    rcases List.mem_map.mp hkv with ⟨a, _, he⟩
    subst he
    refine ⟨by positivity, ?_⟩
    rw [div_le_one hkpos]
    exact hone
  · rw [heq]
    exact wkeys_keyform tickers _
  · rw [heq]
    show wsum (tickers.map (fun a => (a, 1 / (tickers.length : ℚ)))) = 1
    rw [wsum_keyform, sum_map_constQ]
    field_simp

theorem market_cap_weight_list_OK (tickers : List Asset) (mcap : OSeries)
    (hnd : tickers.Nodup) (hne : tickers.length ≠ 0)
    (hKnd : (mcap.map Prod.fst).Nodup)
    (hsub : ∀ a ∈ tickers, a ∈ mcap.map Prod.fst)
    (hmc : ∀ a, 0 ≤ mcapVal mcap a) :
    (∃ w, market_cap_weight_list tickers mcap = some w) ∧
    (∀ kv ∈ (market_cap_weight_list tickers mcap).getD [], 0 ≤ kv.2 ∧ kv.2 ≤ 1) ∧
    wkeys ((market_cap_weight_list tickers mcap).getD []) = mcap.map Prod.fst ∧
    wsum ((market_cap_weight_list tickers mcap).getD []) = 1 := by
  have hkpos : (0:ℚ) < (tickers.length : ℚ) := by
    exact_mod_cast Nat.pos_of_ne_zero hne
  have hone : (1:ℚ) ≤ (tickers.length : ℚ) := by
    exact_mod_cast Nat.one_le_iff_ne_zero.mpr hne
  have hdle : (1:ℚ) / (tickers.length : ℚ) ≤ 1 := by
    rw [div_le_one hkpos]; exact hone
  have hsum1 : (tickers.map (fun _ => 1 / (tickers.length : ℚ))).sum = 1 := by
    rw [sum_map_constQ]
    field_simp
  by_cases h3 : (tickers.map (mcapVal mcap)).sum ≤ 0
  · have heq : market_cap_weight_list tickers mcap
        = some ((mcap.map Prod.fst).map
          (fun a => (a, if a ∈ tickers then 1 / (tickers.length : ℚ) else 0))) := by
      simp [market_cap_weight_list, h3, hne]
    rw [heq]
    refine ⟨⟨_, rfl⟩, ?_⟩
    exact keyform_OK (mcap.map Prod.fst) tickers
      (fun _ => 1 / (tickers.length : ℚ)) hKnd hnd hsub
      (fun a _ => ⟨by positivity, hdle⟩) hsum1
  · have htot : 0 < (tickers.map (mcapVal mcap)).sum := lt_of_not_le h3
    have heq : market_cap_weight_list tickers mcap
        = some ((mcap.map Prod.fst).map
          (fun a => (a, if a ∈ tickers
            then mcapVal mcap a / (tickers.map (mcapVal mcap)).sum else 0))) := by
      simp only [market_cap_weight_list, if_neg h3]
    rw [heq]
    refine ⟨⟨_, rfl⟩, ?_⟩
    refine keyform_OK (mcap.map Prod.fst) tickers
      (fun a => mcapVal mcap a / (tickers.map (mcapVal mcap)).sum)
      hKnd hnd hsub ?_ ?_
    · intro a ha
      constructor
      · exact div_nonneg (hmc a) (le_of_lt htot)
      · rw [div_le_one htot]
        exact single_le_sum_map _ (mcapVal mcap) (fun b _ => hmc b) a ha
    · rw [sum_map_div_distrib, div_self (ne_of_gt htot)]

theorem minimum_variance_weight_list_OK (solver : Solver) (eigCheck : EigCheck)
    (tickers : List Asset) (price : Frame) (d : Date) (lb : ℕ)
    (hs : GoodSolver solver) (hnd : tickers.Nodup) (hne : tickers.length ≠ 0) :
    (∃ w, minimum_variance_weight_list solver eigCheck tickers price d lb = some w) ∧
    (∀ kv ∈ (minimum_variance_weight_list solver eigCheck tickers price d lb).getD [],
      0 ≤ kv.2 ∧ kv.2 ≤ 1) ∧
    wkeys ((minimum_variance_weight_list solver eigCheck tickers price d lb).getD [])
      = tickers ∧
    wsum ((minimum_variance_weight_list solver eigCheck tickers price d lb).getD [])
      = 1 := by
  have heq : minimum_variance_weight_list solver eigCheck tickers price d lb
      = some (minVarCore solver eigCheck tickers
          (tickers.map (fun a => (a, 0))) price d lb) := by
    simp [minimum_variance_weight_list, hne]
  have hb : ∀ kv ∈ tickers.map (fun a => (a, (0:ℚ))), kv.2 = 0 := by
    intro kv hkv
    rcases List.mem_map.mp hkv with ⟨a, _, he⟩
    exact he ▸ rfl
  have hkeys : wkeys (tickers.map (fun a => (a, (0:ℚ)))) = tickers :=
    wkeys_keyform tickers (fun _ => 0)
  rw [heq]
  have h := minVarCore_OK solver eigCheck tickers
    (tickers.map (fun a => (a, 0))) price d lb hs hb
    (by rw [hkeys]; exact hnd) (by intro a ha; rw [hkeys]; exact ha) hnd hne
  refine ⟨⟨_, rfl⟩, h.1, ?_, h.2.2⟩
  show wkeys (minVarCore solver eigCheck tickers
    (tickers.map (fun a => (a, 0))) price d lb) = tickers
  rw [h.2.1, hkeys]

/-! ### Conditional selection subset lemmas -/

theorem groupScores_keys (F : Frame) (d : Date) (g : List Asset) :
    (groupScores F d g).map Prod.fst = g := by
  rw [groupScores, List.map_map]
  exact List.map_id g

theorem bucketHigh_subset (scores : WSeries) (n : ℕ) :
    ∀ a ∈ bucketHigh scores n, a ∈ scores.map Prod.fst := by
  intro a ha
  rcases List.mem_map.mp ha with ⟨kv, hkv, he⟩
  exact he ▸ (sortDesc_keys_perm scores).mem_iff.mp
    (List.mem_map_of_mem Prod.fst (List.take_subset n _ hkv))

theorem bucketLow_subset (scores : WSeries) (n : ℕ) :
    ∀ a ∈ bucketLow scores n, a ∈ scores.map Prod.fst := by
  intro a ha
  rcases List.mem_map.mp ha with ⟨kv, hkv, he⟩
  exact he ▸ (sortDesc_keys_perm scores).mem_iff.mp
    (List.mem_map_of_mem Prod.fst (List.drop_subset _ _ hkv))

theorem valueHighTickers_subset (valF : Frame) (d : Date) (common : List Asset) :
    ∀ a ∈ valueHighTickers valF d common, a ∈ common := by
  intro a ha
  have := bucketHigh_subset (groupScores valF d common) (truncN common.length) a ha
  rwa [groupScores_keys] at this

theorem conditionalCommon_subset (comp valF momF profF : Frame) (d : Date) :
    ∀ a ∈ conditionalCommon comp valF momF profF d, a ∈ comp.cols := by
  intro a ha
  exact List.mem_of_mem_filter (List.mem_of_mem_filter ha)

theorem buyEligible_subset_vhigh (valF momF profF : Frame) (d : Date)
    (common : List Asset) :
    ∀ a ∈ buyEligible valF momF profF d common,
      a ∈ valueHighTickers valF d common := by
  intro a ha
  rw [buyEligible, List.mem_dedup] at ha
  rcases List.mem_append.mp ha with h | h
  rotate_left
  · exact List.mem_of_mem_filter h
  rcases List.mem_append.mp h with h | h
  rotate_left
  · exact List.mem_of_mem_filter h
  rcases List.mem_append.mp h with h | h
  · exact List.mem_of_mem_filter h
  · exact List.mem_of_mem_filter h

theorem condSelection_subset (comp valF momF profF : Frame) (d : Date) :
    ∀ a ∈ condSelection comp valF momF profF d, a ∈ comp.cols := by
  intro a ha
  rw [condSelection] at ha
  by_cases h : (conditionalCommon comp valF momF profF d).length < 10
  · rw [if_pos h] at ha
    cases ha
  · rw [if_neg h] at ha
    exact conditionalCommon_subset comp valF momF profF d a
      (valueHighTickers_subset valF d _ a
        (buyEligible_subset_vhigh valF momF profF d _ a ha))

theorem condSelection_nodup (comp valF momF profF : Frame) (d : Date) :
    (condSelection comp valF momF profF d).Nodup := by
  rw [condSelection]
  by_cases h : (conditionalCommon comp valF momF profF d).length < 10
  · rw [if_pos h]
    exact List.nodup_nil
  · rw [if_neg h]
    exact List.nodup_dedup _

theorem mcapRow_keys (mcap : Frame) (d : Date) :
    (mcapRow mcap d).map Prod.fst = mcap.cols := by
  rw [mcapRow, List.map_map]
  exact List.map_id mcap.cols

theorem mcapVal_mcapRow_nonneg (mcap : Frame) (d : Date)
    (h : ∀ dd a q, mcap.cell dd a = some q → 0 ≤ q) :
    ∀ a, 0 ≤ mcapVal (mcapRow mcap d) a := by
  intro a
  rw [mcapVal, mcapRow, olookup_mapval]
  by_cases hm : a ∈ mcap.cols
  · rw [if_pos hm]
    cases hc : mcap.cell d a with
    | none => simp
    | some q => simpa using h d a q hc
  · rw [if_neg hm]
    simp


/-! ### Period-level invariants -/

theorem currentScores_keys_sublist (F : Frame) (d : Date) (tk : List Asset) :
    ((currentScores F d tk).map Prod.fst).Sublist tk := by
  have h1 : (currentScores F d tk).Sublist (tk.map (fun a => (a, F.cell d a))) :=
    List.filter_sublist _
  have h2 := h1.map Prod.fst
  have h3 : (tk.map (fun a => (a, F.cell d a))).map Prod.fst = tk := by
    rw [List.map_map]
    exact List.map_id tk
  rwa [h3] at h2

theorem periodWeights_eq (ctx : Ctx) (T : Tables) (p : CParams) (d : Date) :
    periodWeights ctx T p d
      = if p.volatility_scaling
        then volatility_scaling_weight ctx.sq (methodWeights ctx T p d) T.price d
          p.target_volatility p.volatility_lookback_months
        else methodWeights ctx T p d := by
  cases p.method <;> rfl

theorem conditionalPeriodWeights_eq (ctx : Ctx) (T : Tables) (p : CParams) (d : Date) :
    conditionalPeriodWeights ctx T p d
      = if (condSelection T.comp T.valF T.momF T.profF d).length = 0
        then zerosRow T.price.cols
        else if p.volatility_scaling
          then volatility_scaling_weight ctx.sq (condMethodWeights ctx T p d) T.price d
            p.target_volatility p.volatility_lookback_months
          else condMethodWeights ctx T p d := by
  cases p.method <;> rfl

theorem methodWeights_OK (ctx : Ctx) (T : Tables) (p : CParams) (d : Date)
    (hT : GoodInputs T) (hs : GoodSolver ctx.solver) :
    (∀ kv ∈ methodWeights ctx T p d, 0 ≤ kv.2 ∧ kv.2 ≤ 1) ∧
    (∀ a ∈ wkeys (methodWeights ctx T p d), a ∈ T.price.cols) ∧
    (wkeys (methodWeights ctx T p d)).Nodup ∧
    wsum (methodWeights ctx T p d) ≤ 1 ∧
    (wsum (methodWeights ctx T p d) = 0 ↔ runSelection RunKind.single T p d = []) := by
  have hvk : (get_tickers_at_date T.comp d).Nodup := hT.compNd.filter _
  have hsknd : ((currentScores T.factor d (get_tickers_at_date T.comp d)).map
      Prod.fst).Nodup :=
    (currentScores_keys_sublist T.factor d _).nodup hvk
  have hssub : ∀ a ∈ (currentScores T.factor d (get_tickers_at_date T.comp d)).map
      Prod.fst, a ∈ T.price.cols := by
    intro a ha
    exact hT.compSubPrice a
      (List.mem_of_mem_filter ((currentScores_keys_sublist T.factor d _).mem ha))
  have hseleq : runSelection RunKind.single T p d
      = selectedTickers (currentScores T.factor d (get_tickers_at_date T.comp d))
        p.top_n false := rfl
  by_cases h2 : actualTopN p.top_n
      (dropna (currentScores T.factor d (get_tickers_at_date T.comp d))).length = 0
  · have hsel : runSelection RunKind.single T p d = [] := by
      rw [hseleq, selectedTickers_eq_nil_iff]
      exact h2
    have hnil : methodWeights ctx T p d = [] := by
      rw [methodWeights]
      cases p.method with
      | market_cap => exact market_cap_weight_eq_nil _ _ _ _ h2
      | min_variance => exact minimum_variance_weight_eq_nil _ _ _ _ _ _ _ _ h2
      | equal => exact equal_weight_eq_nil _ _ _ h2
    rw [hnil]
    refine ⟨fun kv hkv => absurd hkv (List.not_mem_nil kv), ?_, ?_, ?_, ?_⟩
    · intro a ha
      exact absurd ha (List.not_mem_nil a)
    · exact List.nodup_nil
    · show wsum [] ≤ 1
      rw [show wsum [] = 0 from rfl]
      norm_num
    · rw [show wsum [] = 0 from rfl]
      exact ⟨fun _ => hsel, fun _ => rfl⟩
  · have h1 : (dropna (currentScores T.factor d
        (get_tickers_at_date T.comp d))).length ≠ 0 := by
      intro hc
      exact h2 (hc ▸ actualTopN_of_len_zero p.top_n)
    have hselne : ¬ runSelection RunKind.single T p d = [] := by
      rw [hseleq, selectedTickers_eq_nil_iff]
      exact h2
    have htriple : (∀ kv ∈ methodWeights ctx T p d, 0 ≤ kv.2 ∧ kv.2 ≤ 1) ∧
        wkeys (methodWeights ctx T p d)
          = (currentScores T.factor d (get_tickers_at_date T.comp d)).map Prod.fst ∧
        wsum (methodWeights ctx T p d) = 1 := by
      rw [methodWeights]
      cases p.method with
      | market_cap =>
          exact market_cap_weight_OK _ _ _ _ hsknd h1 h2
            (mcapVal_mcapRow_nonneg T.mcap d hT.mcapNonneg)
      | min_variance =>
          exact minimum_variance_weight_OK _ _ _ _ _ _ _ _ hs hsknd h1 h2
      | equal => exact equal_weight_OK _ _ _ hsknd h1 h2
    refine ⟨htriple.1, ?_, ?_, ?_, ?_⟩
    · intro a ha
      exact hssub a (htriple.2.1 ▸ ha)
    · rw [htriple.2.1]
      exact hsknd
    · rw [htriple.2.2]
    · rw [htriple.2.2]
      exact ⟨fun hc => absurd hc one_ne_zero, fun hc => absurd hc hselne⟩

theorem condMethodWeights_OK (ctx : Ctx) (T : Tables) (p : CParams) (d : Date)
    (hT : GoodInputs T) (hs : GoodSolver ctx.solver)
    (hne : (condSelection T.comp T.valF T.momF T.profF d).length ≠ 0) :
    (∀ kv ∈ condMethodWeights ctx T p d, 0 ≤ kv.2 ∧ kv.2 ≤ 1) ∧
    (∀ a ∈ wkeys (condMethodWeights ctx T p d), a ∈ T.price.cols) ∧
    (wkeys (condMethodWeights ctx T p d)).Nodup ∧
    wsum (condMethodWeights ctx T p d) = 1 := by
  have hnd := condSelection_nodup T.comp T.valF T.momF T.profF d
  have hsubc := condSelection_subset T.comp T.valF T.momF T.profF d
  rw [condMethodWeights]
  cases p.method with
  | equal =>
      have h := equal_weight_list_OK _ hnd hne
      refine ⟨h.2.1, ?_, ?_, h.2.2.2⟩
      · intro a ha
        rw [h.2.2.1] at ha
        exact hT.compSubPrice a (hsubc a ha)
      · rw [h.2.2.1]
        exact hnd
  | market_cap =>
      have h := market_cap_weight_list_OK _ (mcapRow T.mcap d) hnd hne
        (by rw [mcapRow_keys]; exact hT.mcapNd)
        (by intro a ha; rw [mcapRow_keys]; exact hT.compSubMcap a (hsubc a ha))
        (mcapVal_mcapRow_nonneg T.mcap d hT.mcapNonneg)
      refine ⟨h.2.1, ?_, ?_, h.2.2.2⟩
      · intro a ha
        rw [h.2.2.1, mcapRow_keys] at ha
        exact hT.mcapSubPrice a ha
      · rw [h.2.2.1, mcapRow_keys]
        exact hT.mcapNd
  | min_variance =>
      have h := minimum_variance_weight_list_OK ctx.solver ctx.eigCheck _
        T.price d p.volatility_lookback_months hs hnd hne
      refine ⟨h.2.1, ?_, ?_, h.2.2.2⟩
      · intro a ha
        rw [h.2.2.1] at ha
        exact hT.compSubPrice a (hsubc a ha)
      · rw [h.2.2.1]
        exact hnd

theorem periodWeights_single_OK (ctx : Ctx) (T : Tables) (p : CParams) (d : Date)
    (hT : GoodInputs T) (hs : GoodSolver ctx.solver) (hq : GoodSq ctx.sq)
    (htv : 0 < p.target_volatility) :
    (∀ kv ∈ periodWeights ctx T p d, 0 ≤ kv.2 ∧ kv.2 ≤ 1) ∧
    (∀ a ∈ wkeys (periodWeights ctx T p d), a ∈ T.price.cols) ∧
    (wkeys (periodWeights ctx T p d)).Nodup ∧
    0 ≤ wsum (periodWeights ctx T p d) ∧ wsum (periodWeights ctx T p d) ≤ 1 ∧
    (wsum (periodWeights ctx T p d) = 0 ↔ runSelection RunKind.single T p d = []) := by
  have hb := methodWeights_OK ctx T p d hT hs
  have hb0 : 0 ≤ wsum (methodWeights ctx T p d) :=
    wsum_nonneg _ (fun kv hkv => (hb.1 kv hkv).1)
  rw [periodWeights_eq]
  by_cases hvs : p.volatility_scaling = true
  · rw [if_pos hvs]
    have h := volatility_scaling_OK ctx.sq hq (methodWeights ctx T p d) T.price d
      p.target_volatility p.volatility_lookback_months htv hb.1 hb.2.2.2.1
    refine ⟨h.1, ?_, ?_, h.2.2.2.1, h.2.2.2.2, ?_⟩
    · intro a ha
      rw [h.2.1] at ha
      exact hb.2.1 a ha
    · rw [h.2.1]
      exact hb.2.2.1
    · exact h.2.2.1.trans hb.2.2.2.2
  · rw [if_neg hvs]
    exact ⟨hb.1, hb.2.1, hb.2.2.1, hb0, hb.2.2.2.1, hb.2.2.2.2⟩

theorem periodWeights_conditional_OK (ctx : Ctx) (T : Tables) (p : CParams)
    (d : Date) (hT : GoodInputs T) (hs : GoodSolver ctx.solver) (hq : GoodSq ctx.sq)
    (htv : 0 < p.target_volatility) :
    (∀ kv ∈ conditionalPeriodWeights ctx T p d, 0 ≤ kv.2 ∧ kv.2 ≤ 1) ∧
    (∀ a ∈ wkeys (conditionalPeriodWeights ctx T p d), a ∈ T.price.cols) ∧
    (wkeys (conditionalPeriodWeights ctx T p d)).Nodup ∧
    0 ≤ wsum (conditionalPeriodWeights ctx T p d) ∧
    wsum (conditionalPeriodWeights ctx T p d) ≤ 1 ∧
    (wsum (conditionalPeriodWeights ctx T p d) = 0
      ↔ runSelection RunKind.conditional T p d = []) := by
  have hseleq : runSelection RunKind.conditional T p d
      = condSelection T.comp T.valF T.momF T.profF d := rfl
  rw [conditionalPeriodWeights_eq]
  by_cases hsel : (condSelection T.comp T.valF T.momF T.profF d).length = 0
  · rw [if_pos hsel]
    have hz : wsum (zerosRow T.price.cols) = 0 := by
      rw [zerosRow, wsum_keyform, sum_map_constQ, mul_zero]
    refine ⟨?_, ?_, ?_, ?_, ?_, ?_⟩
    · intro kv hkv
      rcases List.mem_map.mp hkv with ⟨a, _, he⟩
      subst he
      norm_num
    · intro a ha
      rw [zerosRow, wkeys_keyform] at ha
      exact ha
    · rw [zerosRow, wkeys_keyform]
      exact hT.priceNd
    · rw [hz]
    · rw [hz]
      norm_num
    · rw [hz, hseleq]
      exact ⟨fun _ => List.length_eq_zero.mp hsel, fun _ => rfl⟩
  · rw [if_neg hsel]
    have hb := condMethodWeights_OK ctx T p d hT hs hsel
    have hb0 : 0 ≤ wsum (condMethodWeights ctx T p d) :=
      wsum_nonneg _ (fun kv hkv => (hb.1 kv hkv).1)
    have hble : wsum (condMethodWeights ctx T p d) ≤ 1 := le_of_eq hb.2.2.2
    have hselne : ¬ condSelection T.comp T.valF T.momF T.profF d = [] := by
      intro hc
      exact hsel (by rw [hc]; rfl)
    by_cases hvs : p.volatility_scaling = true
    · rw [if_pos hvs]
      have h := volatility_scaling_OK ctx.sq hq (condMethodWeights ctx T p d)
        T.price d p.target_volatility p.volatility_lookback_months htv hb.1 hble
      refine ⟨h.1, ?_, ?_, h.2.2.2.1, h.2.2.2.2, ?_⟩
      · intro a ha
        rw [h.2.1] at ha
        exact hb.2.1 a ha
      · rw [h.2.1]
        exact hb.2.2.1
      · rw [hseleq]
        constructor
        · intro hc
          exact absurd (hb.2.2.2 ▸ h.2.2.1.mp hc) one_ne_zero
        · intro hc
          exact absurd hc hselne
    · rw [if_neg hvs]
      refine ⟨hb.1, hb.2.1, hb.2.2.1, hb0, hble, ?_⟩
      rw [hb.2.2.2, hseleq]
      exact ⟨fun hc => absurd hc one_ne_zero, fun hc => absurd hc hselne⟩

theorem runPeriodWeights_OK (kind : RunKind) (ctx : Ctx) (T : Tables) (p : CParams)
    (d : Date) (hT : GoodInputs T) (hs : GoodSolver ctx.solver) (hq : GoodSq ctx.sq)
    (htv : 0 < p.target_volatility) :
    (∀ kv ∈ runPeriodWeights kind ctx T p d, 0 ≤ kv.2 ∧ kv.2 ≤ 1) ∧
    (∀ a ∈ wkeys (runPeriodWeights kind ctx T p d), a ∈ T.price.cols) ∧
    (wkeys (runPeriodWeights kind ctx T p d)).Nodup ∧
    0 ≤ wsum (runPeriodWeights kind ctx T p d) ∧
    wsum (runPeriodWeights kind ctx T p d) ≤ 1 ∧
    (wsum (runPeriodWeights kind ctx T p d) = 0 ↔ runSelection kind T p d = []) := by
  cases kind with
  | single => exact periodWeights_single_OK ctx T p d hT hs hq htv
  | conditional => exact periodWeights_conditional_OK ctx T p d hT hs hq htv


/-! ### Claim C1 -/

/-- C1 counterexample: the claim states every entry of the produced
WeightSchedule lies in `[0, 1]`. In a single-factor equal-weight run where
asset 1 is ineligible at the (only) anchor, the broadcast
`weights.loc[date] = portfolio_weights[anchor]` aligns a weight series whose
index omits asset 1 into the full-column row, so the produced schedule holds
NaN (`none`) there — not a number in `[0, 1]`. -/
theorem C1_entry_NaN_counterexample :
    (0:ℤ) ∈ filteredDates cexTables1.price cexParams1.start_date cexParams1.end_date ∧
    1 ∈ cexTables1.price.cols ∧
    scheduleEntry RunKind.single cexCtx cexTables1 cexParams1 0 1 = none := by
  refine ⟨by decide, by decide, ?_⟩
  decide

/-- C1 (amended): in every construction run (single-factor or conditional, any
weighting method, with or without the overlay), every *defined* entry of the
produced WeightSchedule lies in `[0, 1]` (entries for assets outside the
anchor's weight index are NaN), every date's row sum over assets — NaN
skipped, as the engine's own `sum` does — lies in `[0, 1]`, and a date's row
sum is `0` iff that date's rebalance period had an empty selection. Assumes
well-formed aligned tables, the SLSQP box/budget constraint contract on
success, positivity of `np.sqrt` on positive input, and a positive volatility
target. -/
theorem C1_schedule_row_invariants (kind : RunKind) (ctx : Ctx) (T : Tables)
    (p : CParams) (hT : GoodInputs T) (hs : GoodSolver ctx.solver)
    (hq : GoodSq ctx.sq) (htv : 0 < p.target_volatility)
    (hfd : (filteredDates T.price p.start_date p.end_date).Nodup) :
    ∀ d ∈ filteredDates T.price p.start_date p.end_date,
      (∀ a q, scheduleEntry kind ctx T p d a = some q → 0 ≤ q ∧ q ≤ 1) ∧
      0 ≤ scheduleRowSum kind ctx T p d ∧ scheduleRowSum kind ctx T p d ≤ 1 ∧
      (scheduleRowSum kind ctx T p d = 0 ↔ runSelection kind T p d = []) := by
  intro d hd
  have hanc := rebalMap_anchor T.price p.start_date p.end_date hfd d hd
  have hentry : ∀ a, scheduleEntry kind ctx T p d a
      = wlookup (runPeriodWeights kind ctx T p d) a := by
    intro a
    rw [scheduleEntry, hanc]
  have hp := runPeriodWeights_OK kind ctx T p d hT hs hq htv
  have hmc : T.price.cols.map (fun a => (scheduleEntry kind ctx T p d a).getD 0)
      = T.price.cols.map
        (fun a => (wlookup (runPeriodWeights kind ctx T p d) a).getD 0) :=
    List.map_congr_left (fun a _ => by rw [hentry a])
  have hrs : scheduleRowSum kind ctx T p d
      = wsum (runPeriodWeights kind ctx T p d) := by
    rw [scheduleRowSum, hmc]
    exact sum_lookup_getD T.price.cols _ hT.priceNd hp.2.2.1 hp.2.1
  refine ⟨?_, ?_, ?_, ?_⟩
  · intro a q hq2
    rw [hentry a] at hq2
    rcases Option.map_eq_some'.mp hq2 with ⟨kv, hfind, hv⟩
    exact hv ▸ hp.1 kv (List.mem_of_find?_eq_some hfind)
  · rw [hrs]
    exact hp.2.2.2.1
  · rw [hrs]
    exact hp.2.2.2.2.1
  · rw [hrs]
    exact hp.2.2.2.2.2

/-- C1 witness: the amended invariants instantiated on a concrete fully
eligible one-date run. -/
theorem C1_schedule_row_invariants_witness :
    (0:ℤ) ∈ filteredDates witTables1.price cexParams1.start_date cexParams1.end_date ∧
    0 ≤ scheduleRowSum RunKind.single cexCtx witTables1 cexParams1 0 ∧
    scheduleRowSum RunKind.single cexCtx witTables1 cexParams1 0 ≤ 1 := by
  have hT : GoodInputs witTables1 :=
    ⟨by decide, by decide, by decide, fun a ha => ha, fun a ha => ha,
     fun a ha => ha, fun d a q h => by
      injection h with h2
      rw [← h2]
      norm_num⟩
  have hs : GoodSolver cexCtx.solver := fun M n g h => nomatch h
  have hq : GoodSq cexCtx.sq := fun v _ => one_pos
  have h := C1_schedule_row_invariants RunKind.single cexCtx witTables1 cexParams1
    hT hs hq (by norm_num [cexParams1]) (by decide) 0 (by decide)
  exact ⟨by decide, h.2.1, h.2.2.1⟩

/-! ### Claim C3 -/

/-- C3: the rebalance map sends every date of the filtered axis to the latest
anchor `≤` it (the anchors being the sorted filtered dates themselves, every
date is in fact its own anchor, and the last anchor covers every later date),
and any two dates with the same anchor have identical WeightSchedule rows
(held-weight invariant: the broadcast writes the anchor's weight series into
both rows). -/
theorem C3_rebalance_map_and_held_weights (kind : RunKind) (ctx : Ctx)
    (T : Tables) (p : CParams)
    (hfd : (filteredDates T.price p.start_date p.end_date).Nodup) :
    (∀ d ∈ filteredDates T.price p.start_date p.end_date,
      ∃ a, rebalMap (anchorsOf T.price p.start_date p.end_date) d = some a ∧
        a ∈ anchorsOf T.price p.start_date p.end_date ∧ a ≤ d ∧
        (∀ b ∈ anchorsOf T.price p.start_date p.end_date, b ≤ d → b ≤ a)) ∧
    (∀ d1 ∈ filteredDates T.price p.start_date p.end_date,
      ∀ d2 ∈ filteredDates T.price p.start_date p.end_date,
        rebalMap (anchorsOf T.price p.start_date p.end_date) d1
          = rebalMap (anchorsOf T.price p.start_date p.end_date) d2 →
        ∀ x, scheduleEntry kind ctx T p d1 x = scheduleEntry kind ctx T p d2 x) := by
  constructor
  · intro d hd
    exact ⟨d, rebalMap_anchor _ _ _ hfd d hd, (anchors_perm _).mem_iff.mpr hd,
      le_refl d, fun b _ hb => hb⟩
  · intro d1 h1 d2 h2 heq x
    rw [scheduleEntry, scheduleEntry, heq]

/-- C3 witness: the map and held-weight facts on a concrete one-date run. -/
theorem C3_rebalance_map_and_held_weights_witness :
    ∃ a, rebalMap (anchorsOf witTables1.price cexParams1.start_date
        cexParams1.end_date) 0 = some a ∧
      a ∈ anchorsOf witTables1.price cexParams1.start_date cexParams1.end_date ∧
      a ≤ 0 ∧
      (∀ b ∈ anchorsOf witTables1.price cexParams1.start_date cexParams1.end_date,
        b ≤ 0 → b ≤ a) := by
  have h := C3_rebalance_map_and_held_weights RunKind.single cexCtx witTables1
    cexParams1 (by decide)
  exact h.1 0 (by decide)


/-! ### Claim C10 -/

theorem initIndexEffect_cells (parse : List ℕ → List Date) (t : MutTable) :
    (initIndexEffect parse t).cells = t.cells := by
  rw [initIndexEffect]
  cases h : t.index <;> rfl

theorem initIndexEffect_dt (parse : List ℕ → List Date) (t : MutTable)
    (h : ∃ l, t.index = PIndex.dt l) : initIndexEffect parse t = t := by
  rcases h with ⟨l, hl⟩
  rw [initIndexEffect, hl]

/-- C10 counterexample: the claim states the caller's tables keep the same
index objects across construction. When the price table arrives with a raw
(non-datetime) index, `__init__` executes
`self.price_data.index = pd.to_datetime(self.price_data.index)` on the
caller's own object, replacing its index in place. -/
theorem C10_index_mutation_counterexample :
    ((constructorInitEffect (fun l => l.map Int.ofNat)
        { index := PIndex.raw [202001], cells := fun _ _ => none }
        { index := PIndex.raw [202001], cells := fun _ _ => none }).1).index
      ≠ PIndex.raw [202001] := by
  decide

/-- C10 (amended): a construction run never mutates any cell contents of the
caller's tables, and factor/capitalization tables are never written at all
(in this embedding every operation past `__init__` is a pure function of the
tables); but when the price or universe table is not already datetime-indexed,
`__init__` replaces that table's index in place with the parsed DatetimeIndex.
With datetime-indexed inputs the constructor leaves both tables entirely
unchanged. -/
theorem C10_init_mutation_amended (parse : List ℕ → List Date)
    (price_data composition_data : MutTable) :
    ((constructorInitEffect parse price_data composition_data).1.cells
        = price_data.cells ∧
      (constructorInitEffect parse price_data composition_data).2.cells
        = composition_data.cells) ∧
    ((∃ lp, price_data.index = PIndex.dt lp) →
      (∃ lc, composition_data.index = PIndex.dt lc) →
      constructorInitEffect parse price_data composition_data
        = (price_data, composition_data)) := by
  refine ⟨⟨initIndexEffect_cells parse price_data,
    initIndexEffect_cells parse composition_data⟩, ?_⟩
  intro hp hc
  rw [constructorInitEffect, initIndexEffect_dt parse price_data hp,
    initIndexEffect_dt parse composition_data hc]

/-- C10 witness: datetime-indexed inputs pass through `__init__` untouched. -/
theorem C10_init_mutation_amended_witness :
    constructorInitEffect (fun l => l.map Int.ofNat)
      { index := PIndex.dt [0], cells := fun _ _ => none }
      { index := PIndex.dt [0], cells := fun _ _ => none }
      = ({ index := PIndex.dt [0], cells := fun _ _ => none },
         { index := PIndex.dt [0], cells := fun _ _ => none }) :=
  (C10_init_mutation_amended (fun l => l.map Int.ofNat) _ _).2 ⟨[0], rfl⟩ ⟨[0], rfl⟩

/-! ### Claim C5 -/

/-- C5 counterexample: the claim states an empty selection yields an all-zero
weight mapping rather than an error in either call shape. In the ticker-list
call shape the source runs `weights[selected_tickers] = 1.0 / len(selected_tickers)`
with `len == 0` and raises `ZeroDivisionError` (modelled as `none`), so no
mapping is returned. -/
theorem C5_empty_list_error_counterexample : equal_weight_list [] = none := by
  decide

/-- C5 (amended): in the score-Series shape, each selected asset receives
exactly `1/k` (`k` the selection size), every unselected asset present in the
score index receives `0`, assets outside the score index are absent from the
returned mapping (the mapping covers the score index, not the full universe),
and an empty selection yields the empty series; in the ticker-list shape each
listed asset receives `1/k`, while the empty list raises instead of returning
a mapping. -/
theorem C5_equal_weight_amended (scores : OSeries) (top_n : Option ℕ) (asc : Bool)
    (tickers : List Asset) (hne : tickers ≠ []) :
    (∀ a ∈ selectedTickers scores top_n asc,
      wlookup (equal_weight scores top_n asc) a
        = some (1 / ((selectedTickers scores top_n asc).length : ℚ))) ∧
    (∀ a ∈ scores.map Prod.fst, selectedTickers scores top_n asc ≠ [] →
      a ∉ selectedTickers scores top_n asc →
      wlookup (equal_weight scores top_n asc) a = some 0) ∧
    (∀ a, a ∉ scores.map Prod.fst →
      wlookup (equal_weight scores top_n asc) a = none) ∧
    (dropna scores = [] → equal_weight scores top_n asc = []) ∧
    (∀ a ∈ tickers, wlookup ((equal_weight_list tickers).getD []) a
      = some (1 / (tickers.length : ℚ))) ∧
    equal_weight_list [] = none := by
  have hguards : selectedTickers scores top_n asc ≠ [] →
      (dropna scores).length ≠ 0 ∧
      actualTopN top_n (dropna scores).length ≠ 0 := by
    intro hsne
    have h2 : actualTopN top_n (dropna scores).length ≠ 0 := by
      intro hc
      exact hsne ((selectedTickers_eq_nil_iff scores top_n asc).mpr hc)
    exact ⟨fun hc => h2 (hc ▸ actualTopN_of_len_zero top_n), h2⟩
  refine ⟨?_, ?_, ?_, ?_, ?_, by decide⟩
  · intro a ha
    rcases hguards (List.ne_nil_of_mem ha) with ⟨h1, h2⟩
    rw [equal_weight_eq scores top_n asc h1 h2,
      oseries_mapval_eq_keyform scores (fun x =>
        if x ∈ selectedTickers scores top_n asc
        then 1 / ((selectedTickers scores top_n asc).length : ℚ) else 0),
      wlookup_keyform,
      if_pos (selectedTickers_subset scores top_n asc a ha), if_pos ha]
  · intro a hak hsne hans
    rcases hguards hsne with ⟨h1, h2⟩
    rw [equal_weight_eq scores top_n asc h1 h2,
      oseries_mapval_eq_keyform scores (fun x =>
        if x ∈ selectedTickers scores top_n asc
        then 1 / ((selectedTickers scores top_n asc).length : ℚ) else 0),
      wlookup_keyform, if_pos hak, if_neg hans]
  · intro a hak
    by_cases h1 : (dropna scores).length = 0
    · rw [equal_weight_eq_nil scores top_n asc (h1 ▸ actualTopN_of_len_zero top_n)]
      rfl
    by_cases h2 : actualTopN top_n (dropna scores).length = 0
    · rw [equal_weight_eq_nil scores top_n asc h2]
      rfl
    rw [equal_weight_eq scores top_n asc h1 h2,
      oseries_mapval_eq_keyform scores (fun x =>
        if x ∈ selectedTickers scores top_n asc
        then 1 / ((selectedTickers scores top_n asc).length : ℚ) else 0),
      wlookup_keyform, if_neg hak]
  · intro hdrop
    exact equal_weight_eq_nil scores top_n asc
      (by rw [hdrop]; exact actualTopN_of_len_zero top_n)
  · intro a ha
    have hlen : tickers.length ≠ 0 := fun hc => hne (List.length_eq_zero.mp hc)
    have heq : equal_weight_list tickers
        = some (tickers.map (fun x => (x, 1 / (tickers.length : ℚ)))) := by
      simp [equal_weight_list, hlen]
    rw [heq]
    show wlookup (tickers.map (fun x => (x, 1 / (tickers.length : ℚ)))) a
      = some (1 / (tickers.length : ℚ))
    rw [wlookup_keyform, if_pos ha]

/-- C5 witness: the amended statement evaluated on a concrete three-name score
series with `top_n = 1` and a concrete two-name list. -/
theorem C5_equal_weight_amended_witness :
    wlookup (equal_weight [(0, some 3), (1, none), (2, some 5)] (some 1) false) 2
      = some (1 / ((selectedTickers [(0, some 3), (1, none), (2, some 5)]
          (some 1) false).length : ℚ)) ∧
    wlookup (equal_weight [(0, some 3), (1, none), (2, some 5)] (some 1) false) 0
      = some 0 ∧
    wlookup (equal_weight [(0, some 3), (1, none), (2, some 5)] (some 1) false) 5
      = none ∧
    wlookup ((equal_weight_list [4, 7]).getD []) 4 = some (1 / (([4, 7] : List Asset).length : ℚ)) := by
  have h := C5_equal_weight_amended [(0, some 3), (1, none), (2, some 5)]
    (some 1) false [4, 7] (by decide)
  exact ⟨h.1 2 (by decide), h.2.1 0 (by decide) (by decide) (by decide),
    h.2.2.1 5 (by decide), h.2.2.2.2.1 4 (by decide)⟩


/-! ### Claim C9 -/

/-- C9: the volatility-targeting overlay returns the input weights unchanged
whenever the input weights sum to 0, the lookback history is insufficient
(fewer than 2 window dates, no return row, or no overlap between the held
assets and the usable columns — the latter two make the computed volatility
0), or the computed current volatility is 0; otherwise it multiplies the
weights by `targetVol/currentVol` and renormalizes by the scaled sum exactly
when that sum exceeds 1; consequently, for nonnegative inputs summing to at
most 1 (and a nonnegative target), the output is nonnegative and sums to at
most 1. -/
theorem C9_volatility_overlay (sq : ℚ → ℚ) (w : WSeries) (price : Frame)
    (d : Date) (tv : ℚ) (lb : ℕ) (hq : GoodSq sq) (htv : 0 ≤ tv)
    (hnn : ∀ kv ∈ w, 0 ≤ kv.2) (hle : wsum w ≤ 1) :
    (wsum w = 0 → volatility_scaling_weight sq w price d tv lb = w) ∧
    ((lookbackRows price d lb).length < 2 →
      volatility_scaling_weight sq w price d tv lb = w) ∧
    ((vsRet price d lb).length = 0 →
      volatility_scaling_weight sq w price d tv lb = w) ∧
    ((vsCommon w (vsCols price (lookbackRows price d lb))).length = 0 →
      volatility_scaling_weight sq w price d tv lb = w) ∧
    (vsCvol sq w price d lb = 0 →
      volatility_scaling_weight sq w price d tv lb = w) ∧
    (¬ wsum w = 0 → ¬ (lookbackRows price d lb).length < 2 →
      ¬ (vsRet price d lb).length = 0 →
      ¬ (vsCommon w (vsCols price (lookbackRows price d lb))).length = 0 →
      ¬ vsCvol sq w price d lb = 0 →
      volatility_scaling_weight sq w price d tv lb
        = if 1 < wsum (vsScaled sq w price d tv lb)
          then (vsScaled sq w price d tv lb).map
            (fun kv => (kv.1, kv.2 / wsum (vsScaled sq w price d tv lb)))
          else vsScaled sq w price d tv lb) ∧
    ((∀ kv ∈ volatility_scaling_weight sq w price d tv lb, 0 ≤ kv.2) ∧
      wsum (volatility_scaling_weight sq w price d tv lb) ≤ 1) := by
  refine ⟨fun h => vsw_eq_unchanged sq w price d tv lb (Or.inl h),
    fun h => vsw_eq_unchanged sq w price d tv lb (Or.inr (Or.inl h)),
    fun h => vsw_eq_unchanged sq w price d tv lb (Or.inr (Or.inr (Or.inl h))),
    fun h => vsw_eq_unchanged sq w price d tv lb (Or.inr (Or.inr (Or.inr (Or.inl h)))),
    fun h => vsw_eq_unchanged sq w price d tv lb (Or.inr (Or.inr (Or.inr (Or.inr h)))),
    vsw_eq_scaled sq w price d tv lb, ?_⟩
  by_cases h1 : wsum w = 0
  · rw [vsw_eq_unchanged sq w price d tv lb (Or.inl h1)]
    exact ⟨hnn, hle⟩
  by_cases h2 : (lookbackRows price d lb).length < 2
  · rw [vsw_eq_unchanged sq w price d tv lb (Or.inr (Or.inl h2))]
    exact ⟨hnn, hle⟩
  by_cases h3 : (vsRet price d lb).length = 0
  · rw [vsw_eq_unchanged sq w price d tv lb (Or.inr (Or.inr (Or.inl h3)))]
    exact ⟨hnn, hle⟩
  by_cases h4 : (vsCommon w (vsCols price (lookbackRows price d lb))).length = 0
  · rw [vsw_eq_unchanged sq w price d tv lb (Or.inr (Or.inr (Or.inr (Or.inl h4))))]
    exact ⟨hnn, hle⟩
  by_cases h5 : vsCvol sq w price d lb = 0
  · rw [vsw_eq_unchanged sq w price d tv lb (Or.inr (Or.inr (Or.inr (Or.inr h5))))]
    exact ⟨hnn, hle⟩
  have hpv : 0 < vsPvar w price d lb := by
    by_contra hc
    exact h5 (if_neg hc)
  have hcpos : 0 < vsCvol sq w price d lb := by
    rw [vsCvol, if_pos hpv]
    exact hq _ hpv
  have hfnn : 0 ≤ tv / vsCvol sq w price d lb := div_nonneg htv (le_of_lt hcpos)
  have hsnn : ∀ kv ∈ vsScaled sq w price d tv lb, 0 ≤ kv.2 := by
    intro kv hkv
    rcases List.mem_map.mp hkv with ⟨kv0, h0, he⟩
    subst he
    exact mul_nonneg (hnn kv0 h0) hfnn
  rw [vsw_eq_scaled sq w price d tv lb h1 h2 h3 h4 h5]
  by_cases hnorm : 1 < wsum (vsScaled sq w price d tv lb)
  · have hSpos : (0:ℚ) < wsum (vsScaled sq w price d tv lb) := lt_trans one_pos hnorm
    rw [if_pos hnorm]
    constructor
    · intro kv hkv
      rcases List.mem_map.mp hkv with ⟨kv0, h0, he⟩
      subst he
      exact div_nonneg (hsnn kv0 h0) (le_of_lt hSpos)
    · rw [wsum_map_div, div_self (ne_of_gt hSpos)]
  · rw [if_neg hnorm]
    exact ⟨hsnn, le_of_not_lt hnorm⟩

/-- C9 witness: on a one-date lookback (insufficient history) the overlay is a
no-op, and the safety bounds hold. -/
theorem C9_volatility_overlay_witness :
    volatility_scaling_weight cexSq [(0, 1/2)] cexPrice1 0 (15/100) 6 = [(0, 1/2)] ∧
    wsum (volatility_scaling_weight cexSq [(0, 1/2)] cexPrice1 0 (15/100) 6) ≤ 1 := by
  have hnn : ∀ kv ∈ ([(0, 1/2)] : WSeries), 0 ≤ kv.2 := by
    intro kv hkv
    rw [List.mem_singleton.mp hkv]
    norm_num
  have hle : wsum [(0, 1/2)] ≤ 1 := by
    norm_num [wsum]
  have h := C9_volatility_overlay cexSq [(0, 1/2)] cexPrice1 0 (15/100) 6
    (fun v _ => one_pos) (by norm_num) hnn hle
  exact ⟨h.2.1 (by decide), h.2.2.2.2.2.2.2⟩

/-! ### Claim C2 -/

/-- C2: in finalization, the portfolio return at the first date is 0 (the
shifted weight row is all NaN); at every later position `i` it is the sum over
assets of the period-`i` return times the weight held at position `i - 1`
(NaN-held weights contributing 0); a missing price on either side of a
transition yields a 0 asset return rather than an error; and the cumulative
value series is the running product of `1 + portfolioReturn`, starting at 1.0
at the first date. -/
theorem C2_finalize_lag (price : Frame) (fd : List Date)
    (row : ℕ → Asset → Option ℚ) :
    portRet price fd row 0 = 0 ∧
    (∀ i : ℕ, 1 ≤ i → portRet price fd row i
      = (price.cols.map (fun a =>
          monthlyReturnAt price fd i a * (row (i - 1) a).getD 0)).sum) ∧
    (∀ i : ℕ, 1 ≤ i → ∀ a,
      (price.cell (fd.getD (i - 1) 0) a = none ∨
        price.cell (fd.getD i 0) a = none) →
      monthlyReturnAt price fd i a = 0) ∧
    portValue price fd row 0 = 1 ∧
    (∀ i : ℕ, portValue price fd row (i + 1)
      = portValue price fd row i * (1 + portRet price fd row (i + 1))) := by
  have h0 : portRet price fd row 0 = 0 := by
    have hterm : ∀ a ∈ price.cols,
        ((shiftedWeight row 0 a).map (fun v => monthlyReturnAt price fd 0 a * v)).getD 0
          = (0 : ℚ) := by
      intro a _
      rw [shiftedWeight, if_pos rfl]
      rfl
    rw [portRet, List.map_congr_left hterm, sum_map_constQ, mul_zero]
  refine ⟨h0, ?_, ?_, ?_, ?_⟩
  · intro i hi
    have hterm : ∀ a ∈ price.cols,
        ((shiftedWeight row i a).map (fun v => monthlyReturnAt price fd i a * v)).getD 0
          = monthlyReturnAt price fd i a * (row (i - 1) a).getD 0 := by
      intro a _
      rw [shiftedWeight, if_neg (by omega)]
      cases h : row (i - 1) a with
      | none => simp
      | some v => simp
    rw [portRet, List.map_congr_left hterm]
  · intro i hi a h
    rw [monthlyReturnAt, if_neg (by omega)]
    rcases h with h | h
    · rw [h]
    · rw [h]
      cases price.cell (fd.getD (i - 1) 0) a <;> rfl
  · rw [portValue]
    rw [show (0:ℕ) + 1 = 1 from rfl, show List.range 1 = [0] from rfl,
      List.map_singleton, List.prod_singleton, h0, add_zero]
  · intro i
    rw [portValue, portValue, List.range_succ, List.map_append, List.prod_append,
      List.map_singleton, List.prod_singleton]

/-- C2 witness: the finalization facts on a concrete two-date frame in which
asset 1 has no prices, with a constant weight row. -/
theorem C2_finalize_lag_witness :
    portRet cexPriceMissing [0, 1] (fun _ _ => some (1/2)) 0 = 0 ∧
    portRet cexPriceMissing [0, 1] (fun _ _ => some (1/2)) 1
      = (cexPriceMissing.cols.map (fun a =>
          monthlyReturnAt cexPriceMissing [0, 1] 1 a *
            ((fun (_ : ℕ) (_ : Asset) => some ((1:ℚ)/2)) 0 a).getD 0)).sum ∧
    monthlyReturnAt cexPriceMissing [0, 1] 1 1 = 0 ∧
    portValue cexPriceMissing [0, 1] (fun _ _ => some (1/2)) 0 = 1 := by
  have h := C2_finalize_lag cexPriceMissing [0, 1] (fun _ _ => some (1/2))
  exact ⟨h.1, h.2.1 1 (by norm_num), h.2.2.1 1 (by norm_num) 1 (Or.inl (by decide)),
    h.2.2.2.1⟩


/-! ### Claim C4 -/

theorem minVarCore_eq_short_window (solver : Solver) (eigCheck : EigCheck)
    (sel : List Asset) (b : WSeries) (price : Frame) (d : Date) (lb : ℕ)
    (h1 : (lookbackRows price d lb).length < 2) :
    minVarCore solver eigCheck sel b price d lb
      = setWeights b sel (1 / (sel.length : ℚ)) := by
  simp only [minVarCore, if_pos h1]

theorem minVarCore_eq_few_available (solver : Solver) (eigCheck : EigCheck)
    (sel : List Asset) (b : WSeries) (price : Frame) (d : Date) (lb : ℕ)
    (h1 : ¬ (lookbackRows price d lb).length < 2)
    (h2 : (availableTickers price (lookbackRows price d lb) sel).length < 2) :
    minVarCore solver eigCheck sel b price d lb
      = setWeights b sel (1 / (sel.length : ℚ)) := by
  simp only [minVarCore, if_neg h1, if_pos h2]

theorem minVarCore_eq_few_returns (solver : Solver) (eigCheck : EigCheck)
    (sel : List Asset) (b : WSeries) (price : Frame) (d : Date) (lb : ℕ)
    (h1 : ¬ (lookbackRows price d lb).length < 2)
    (h2 : ¬ (availableTickers price (lookbackRows price d lb) sel).length < 2)
    (h3 : (returnRows price (lookbackRows price d lb)
      (availableTickers price (lookbackRows price d lb) sel)).length < 2) :
    minVarCore solver eigCheck sel b price d lb
      = setWeights b sel (1 / (sel.length : ℚ)) := by
  simp only [minVarCore, if_neg h1, if_neg h2, if_pos h3]

theorem minVarCore_eq_solver_fail (solver : Solver) (eigCheck : EigCheck)
    (sel : List Asset) (b : WSeries) (price : Frame) (d : Date) (lb : ℕ)
    (h1 : ¬ (lookbackRows price d lb).length < 2)
    (h2 : ¬ (availableTickers price (lookbackRows price d lb) sel).length < 2)
    (h3 : ¬ (returnRows price (lookbackRows price d lb)
      (availableTickers price (lookbackRows price d lb) sel)).length < 2)
    (h4 : ¬ (solver
      (regCov eigCheck
        (covE (returnRows price (lookbackRows price d lb)
          (availableTickers price (lookbackRows price d lb) sel)))
        (availableTickers price (lookbackRows price d lb) sel).length)
      (availableTickers price (lookbackRows price d lb) sel).length
      (fun _ => 1 / ((availableTickers price (lookbackRows price d lb) sel).length : ℚ))).success
      = true) :
    minVarCore solver eigCheck sel b price d lb
      = setWeights b (availableTickers price (lookbackRows price d lb) sel)
          (1 / ((availableTickers price (lookbackRows price d lb) sel).length : ℚ)) := by
  simp only [minVarCore, if_neg h1, if_neg h2, if_neg h3, if_neg h4]

theorem minVarCore_eq_solver_success (solver : Solver) (eigCheck : EigCheck)
    (sel : List Asset) (b : WSeries) (price : Frame) (d : Date) (lb : ℕ)
    (h1 : ¬ (lookbackRows price d lb).length < 2)
    (h2 : ¬ (availableTickers price (lookbackRows price d lb) sel).length < 2)
    (h3 : ¬ (returnRows price (lookbackRows price d lb)
      (availableTickers price (lookbackRows price d lb) sel)).length < 2)
    (h4 : (solver
      (regCov eigCheck
        (covE (returnRows price (lookbackRows price d lb)
          (availableTickers price (lookbackRows price d lb) sel)))
        (availableTickers price (lookbackRows price d lb) sel).length)
      (availableTickers price (lookbackRows price d lb) sel).length
      (fun _ => 1 / ((availableTickers price (lookbackRows price d lb) sel).length : ℚ))).success
      = true) :
    minVarCore solver eigCheck sel b price d lb
      = setWeightsBy b (fun a =>
          (((availableTickers price (lookbackRows price d lb) sel).zip
            (solver
              (regCov eigCheck
                (covE (returnRows price (lookbackRows price d lb)
                  (availableTickers price (lookbackRows price d lb) sel)))
                (availableTickers price (lookbackRows price d lb) sel).length)
              (availableTickers price (lookbackRows price d lb) sel).length
              (fun _ => 1 / ((availableTickers price (lookbackRows price d lb) sel).length : ℚ))).x).find?
            (fun p => p.1 == a)).map Prod.snd) := by
  simp only [minVarCore, if_neg h1, if_neg h2, if_neg h3, if_pos h4]

/-- C4 counterexample: the claim states that with fewer than 2 assets having
sufficient price history, minimum variance falls back to equal weight *over
the remaining assets* (so the dropped asset would get 0 and the surviving one
weight 1). On a 2-asset selection where asset 1 fails the missing-history
threshold, the source instead runs `weights[selected_tickers] = 1.0 /
len(selected_tickers)` over the *original* selection, leaving the dropped
asset 1 with weight `1/2`, not 0. -/
theorem C4_fallback_scope_counterexample :
    wlookup ((minimum_variance_weight_list cexSolver cexEig [0, 1] c4Price 3 12).getD []) 1
      = some (1 / 2) ∧ ¬ ((1 : ℚ) / 2 = 0) := by
  have heq : minimum_variance_weight_list cexSolver cexEig [0, 1] c4Price 3 12
      = some (minVarCore cexSolver cexEig [0, 1]
          (([0, 1] : List Asset).map (fun a => (a, 0))) c4Price 3 12) := by
    simp [minimum_variance_weight_list]
  have hcore := minVarCore_eq_few_available cexSolver cexEig [0, 1]
    (([0, 1] : List Asset).map (fun a => (a, 0))) c4Price 3 12
    (by decide) (by decide)
  have hb : ∀ kv ∈ ([0, 1] : List Asset).map (fun a => (a, (0:ℚ))), kv.2 = 0 := by
    intro kv hkv
    rcases List.mem_map.mp hkv with ⟨a, _, he⟩
    exact he ▸ rfl
  rw [heq]
  constructor
  · show wlookup (minVarCore cexSolver cexEig [0, 1]
      (([0, 1] : List Asset).map (fun a => (a, 0))) c4Price 3 12) 1 = some (1 / 2)
    rw [hcore, setWeights_of_zero _ hb,
      wseries_mapval_eq_keyform _ (fun a =>
        if a ∈ ([0, 1] : List Asset) then 1 / ((([0, 1] : List Asset).length : ℚ)) else 0),
      wlookup_keyform]
    rw [wkeys_keyform]
    norm_num
  · norm_num

/-- C4 (amended): for every nonempty selection with `price_data` and
`current_date` provided, `minimum_variance_weight` never raises: with fewer
than 2 window dates, fewer than 2 assets of sufficient history, or fewer than
2 return rows, it falls back to equal weight over the *full originally
selected* set (not merely the remaining assets); and on solver failure (the
`except` branch coincides) it falls back to equal weight over the available
assets. The score-Series shape is total in the model by construction. -/
theorem C4_min_variance_error_handling (solver : Solver) (eigCheck : EigCheck)
    (tickers : List Asset) (price : Frame) (d : Date) (lb : ℕ)
    (hne : tickers ≠ []) :
    (∃ w, minimum_variance_weight_list solver eigCheck tickers price d lb = some w) ∧
    (minimum_variance_weight_list solver eigCheck tickers price d lb
      = some (minVarCore solver eigCheck tickers
          (tickers.map (fun a => (a, 0))) price d lb)) ∧
    ((lookbackRows price d lb).length < 2 →
      minVarCore solver eigCheck tickers (tickers.map (fun a => (a, 0))) price d lb
        = setWeights (tickers.map (fun a => (a, 0))) tickers
            (1 / (tickers.length : ℚ))) ∧
    (¬ (lookbackRows price d lb).length < 2 →
      (availableTickers price (lookbackRows price d lb) tickers).length < 2 →
      minVarCore solver eigCheck tickers (tickers.map (fun a => (a, 0))) price d lb
        = setWeights (tickers.map (fun a => (a, 0))) tickers
            (1 / (tickers.length : ℚ))) ∧
    (¬ (lookbackRows price d lb).length < 2 →
      ¬ (availableTickers price (lookbackRows price d lb) tickers).length < 2 →
      (returnRows price (lookbackRows price d lb)
        (availableTickers price (lookbackRows price d lb) tickers)).length < 2 →
      minVarCore solver eigCheck tickers (tickers.map (fun a => (a, 0))) price d lb
        = setWeights (tickers.map (fun a => (a, 0))) tickers
            (1 / (tickers.length : ℚ))) ∧
    (¬ (lookbackRows price d lb).length < 2 →
      ¬ (availableTickers price (lookbackRows price d lb) tickers).length < 2 →
      ¬ (returnRows price (lookbackRows price d lb)
        (availableTickers price (lookbackRows price d lb) tickers)).length < 2 →
      ¬ (solver
        (regCov eigCheck
          (covE (returnRows price (lookbackRows price d lb)
            (availableTickers price (lookbackRows price d lb) tickers)))
          (availableTickers price (lookbackRows price d lb) tickers).length)
        (availableTickers price (lookbackRows price d lb) tickers).length
        (fun _ => 1 / ((availableTickers price (lookbackRows price d lb) tickers).length : ℚ))).success
        = true →
      minVarCore solver eigCheck tickers (tickers.map (fun a => (a, 0))) price d lb
        = setWeights (tickers.map (fun a => (a, 0)))
            (availableTickers price (lookbackRows price d lb) tickers)
            (1 / ((availableTickers price (lookbackRows price d lb) tickers).length : ℚ))) := by
  have hlen : tickers.length ≠ 0 := fun hc => hne (List.length_eq_zero.mp hc)
  have heq : minimum_variance_weight_list solver eigCheck tickers price d lb
      = some (minVarCore solver eigCheck tickers
          (tickers.map (fun a => (a, 0))) price d lb) := by
    simp [minimum_variance_weight_list, hlen]
  refine ⟨⟨_, heq⟩, heq, ?_, ?_, ?_, ?_⟩
  · intro h1
    exact minVarCore_eq_short_window solver eigCheck tickers _ price d lb h1
  · intro h1 h2
    exact minVarCore_eq_few_available solver eigCheck tickers _ price d lb h1 h2
  · intro h1 h2 h3
    exact minVarCore_eq_few_returns solver eigCheck tickers _ price d lb h1 h2 h3
  · intro h1 h2 h3 h4
    exact minVarCore_eq_solver_fail solver eigCheck tickers _ price d lb h1 h2 h3 h4

/-- C4 witness: the amended statement instantiated on the concrete
missing-history fixture. -/
theorem C4_min_variance_error_handling_witness :
    (∃ w, minimum_variance_weight_list cexSolver cexEig [0, 1] c4Price 3 12 = some w) ∧
    minVarCore cexSolver cexEig [0, 1]
        (([0, 1] : List Asset).map (fun a => (a, 0))) c4Price 3 12
      = setWeights (([0, 1] : List Asset).map (fun a => (a, 0))) [0, 1]
          (1 / ((([0, 1] : List Asset).length : ℚ))) := by
  have h := C4_min_variance_error_handling cexSolver cexEig [0, 1] c4Price 3 12
    (by decide)
  exact ⟨h.1, h.2.2.2.1 (by decide) (by decide)⟩


/-! ### Claim C6 -/

theorem quadForm_covE_eq (R : List (List ℚ)) (n : ℕ) (w : ℕ → ℚ) :
    quadForm (covE R) n w
      = (∑ t ∈ Finset.range R.length,
          (∑ j ∈ Finset.range n, w j * (entryAt R t j - colMean R j)) ^ 2)
        / ((R.length : ℚ) - 1) * 12 := by
  have hterm : ∀ j k, w j * covE R j k * w k
      = (∑ t ∈ Finset.range R.length,
          (w j * (entryAt R t j - colMean R j)) *
            (w k * (entryAt R t k - colMean R k))) / ((R.length : ℚ) - 1) * 12 := by
    intro j k
    rw [covE]
    have hsum : (∑ t ∈ Finset.range R.length,
        (w j * (entryAt R t j - colMean R j)) *
          (w k * (entryAt R t k - colMean R k)))
        = w j * w k * ∑ t ∈ Finset.range R.length,
            (entryAt R t j - colMean R j) * (entryAt R t k - colMean R k) := by
      rw [Finset.mul_sum]
      exact Finset.sum_congr rfl (fun t _ => by ring)
    rw [hsum]
    ring
  rw [quadForm]
  have h1 : ∀ j ∈ Finset.range n,
      (∑ k ∈ Finset.range n, w j * covE R j k * w k)
        = (∑ k ∈ Finset.range n, ∑ t ∈ Finset.range R.length,
            (w j * (entryAt R t j - colMean R j)) *
              (w k * (entryAt R t k - colMean R k))) / ((R.length : ℚ) - 1) * 12 := by
    intro j _
    rw [Finset.sum_div, Finset.sum_mul]
    exact Finset.sum_congr rfl (fun k _ => hterm j k)
  rw [Finset.sum_congr rfl h1, ← Finset.sum_mul, ← Finset.sum_div]
  congr 1
  congr 1
  have h2 : ∀ j ∈ Finset.range n,
      (∑ k ∈ Finset.range n, ∑ t ∈ Finset.range R.length,
        (w j * (entryAt R t j - colMean R j)) *
          (w k * (entryAt R t k - colMean R k)))
      = ∑ t ∈ Finset.range R.length,
          (w j * (entryAt R t j - colMean R j)) *
            (∑ k ∈ Finset.range n, w k * (entryAt R t k - colMean R k)) := by
    intro j _
    rw [Finset.sum_comm]
    exact Finset.sum_congr rfl (fun t _ => by rw [Finset.mul_sum])
  rw [Finset.sum_congr rfl h2, Finset.sum_comm]
  exact Finset.sum_congr rfl (fun t _ => by rw [← Finset.sum_mul]; ring)

theorem quadForm_covE_nonneg (R : List (List ℚ)) (n : ℕ) (w : ℕ → ℚ)
    (hR : 2 ≤ R.length) : 0 ≤ quadForm (covE R) n w := by
  rw [quadForm_covE_eq]
  have hc : (0:ℚ) < (R.length : ℚ) - 1 := by
    have : (2:ℚ) ≤ (R.length : ℚ) := by exact_mod_cast hR
    linarith
  have hnum : (0:ℚ) ≤ ∑ t ∈ Finset.range R.length,
      (∑ j ∈ Finset.range n, w j * (entryAt R t j - colMean R j)) ^ 2 :=
    Finset.sum_nonneg (fun t _ => sq_nonneg _)
  positivity

theorem quadForm_addDiag (M : ℕ → ℕ → ℚ) (c : ℚ) (n : ℕ) (w : ℕ → ℚ) :
    quadForm (fun j k => M j k + if j = k then c else 0) n w
      = quadForm M n w + c * ∑ j ∈ Finset.range n, w j ^ 2 := by
  rw [quadForm, quadForm, Finset.mul_sum, ← Finset.sum_add_distrib]
  apply Finset.sum_congr rfl
  intro j hj
  have hsplit : ∀ k ∈ Finset.range n,
      w j * (M j k + if j = k then c else 0) * w k
        = w j * M j k * w k + (if j = k then w j * c * w k else 0) := by
    intro k _
    by_cases h : j = k
    · rw [if_pos h, if_pos h]
      ring
    · rw [if_neg h, if_neg h]
      ring
  rw [Finset.sum_congr rfl hsplit, Finset.sum_add_distrib,
    Finset.sum_ite_eq (Finset.range n) j (fun k => w j * c * w k),
    if_pos hj]
  ring

theorem sum_sq_pos_of_ne_zero (n : ℕ) (w : ℕ → ℚ) (h : ∃ j, j < n ∧ w j ≠ 0) :
    0 < ∑ j ∈ Finset.range n, w j ^ 2 := by
  rcases h with ⟨j, hj, hw⟩
  exact Finset.sum_pos' (fun i _ => sq_nonneg (w i))
    ⟨j, Finset.mem_range.mpr hj, by positivity⟩

/-- C6: before optimizing, the engine checks `eigvals(cov) <= 1e-8` and adds
`1e-6 * I` when the check fires; the matrix handed to the optimizer then has
no eigenvalue `≤ 1e-8`. In quadratic-form terms (over a symmetric real matrix,
min-eigenvalue `> c` is exactly `wᵀMw > c‖w‖²` for all `w ≠ 0`): assuming the
abstract eigenvalue routine is sound when it reports no small eigenvalue, and
at least 2 return rows (guaranteed on this code path), the matrix used —
regularized or not — satisfies `wᵀMw > 1e-8·Σw²` for every nonzero `w`,
because the sample covariance is positive semi-definite, so the ridge lifts
its quadratic form to at least `1e-6·Σw² > 1e-8·Σw²`. -/
theorem C6_regularization_bound (eigCheck : EigCheck) (R : List (List ℚ)) (n : ℕ)
    (hR : 2 ≤ R.length)
    (hEig : ∀ (M : ℕ → ℕ → ℚ) (m : ℕ), eigCheck M m = false →
      ∀ w : ℕ → ℚ, (∃ j, j < m ∧ w j ≠ 0) →
        (1 : ℚ) / 100000000 * (∑ j ∈ Finset.range m, w j ^ 2) < quadForm M m w) :
    (eigCheck (covE R) n = true →
      regCov eigCheck (covE R) n
        = fun j k => covE R j k + if j = k then 1 / 1000000 else 0) ∧
    (∀ w : ℕ → ℚ, (∃ j, j < n ∧ w j ≠ 0) →
      (1 : ℚ) / 100000000 * (∑ j ∈ Finset.range n, w j ^ 2)
        < quadForm (regCov eigCheck (covE R) n) n w) := by
  constructor
  · intro h
    rw [regCov, if_pos h]
  · intro w hw
    have hS : 0 < ∑ j ∈ Finset.range n, w j ^ 2 := sum_sq_pos_of_ne_zero n w hw
    cases heig : eigCheck (covE R) n with
    | false =>
        rw [regCov, if_neg (by rw [heig]; exact Bool.false_ne_true)]
        exact hEig (covE R) n heig w hw
    | true =>
        rw [regCov, if_pos heig, quadForm_addDiag]
        have hpsd := quadForm_covE_nonneg R n w hR
        nlinarith [hS, hpsd]

/-- C6 witness: with an always-firing eigenvalue check and the zero return
matrix, the ridge alone pushes the quadratic form above the `1e-8` line. -/
theorem C6_regularization_bound_witness :
    (2 ≤ ([[0, 0], [0, 0]] : List (List ℚ)).length) ∧
    (1 : ℚ) / 100000000 * (∑ j ∈ Finset.range 1, (fun _ : ℕ => (1:ℚ)) j ^ 2)
      < quadForm (regCov (fun _ _ => true) (covE [[0, 0], [0, 0]]) 1) 1
          (fun _ => 1) := by
  have hR : 2 ≤ ([[0, 0], [0, 0]] : List (List ℚ)).length := by decide
  have h := C6_regularization_bound (fun _ _ => true) [[0, 0], [0, 0]] 1 hR
    (fun M m hfalse => absurd hfalse (by simp))
  exact ⟨hR, h.2 (fun _ => 1) ⟨0, by norm_num⟩⟩


/-! ### Conditional bucket arithmetic -/

theorem truncN_le (n : ℕ) : truncN n ≤ n := by
  rw [truncN]
  omega

theorem truncN_add_le (n : ℕ) : truncN n + truncN n ≤ n := by
  rw [truncN]
  omega

theorem subN_add_le (k : ℕ) (hk : 3 ≤ k) : subN k + subN k ≤ k := by
  rw [subN, truncN]
  rcases Nat.lt_or_ge k 4 with h | h
  · have hk3 : k = 3 := by omega
    subst hk3
    decide
  · have h1 : 1 ≤ 3 * k / 10 := by omega
    rw [Nat.max_eq_right h1]
    omega

theorem group_keys_perm (F : Frame) (d : Date) (G : List Asset) :
    (((sortDesc (groupScores F d G)).map Prod.fst)).Perm G := by
  have h := sortDesc_keys_perm (groupScores F d G)
  rwa [groupScores_keys] at h

theorem bucketHigh_eq_take (F : Frame) (d : Date) (G : List Asset) (n : ℕ) :
    bucketHigh (groupScores F d G) n
      = ((sortDesc (groupScores F d G)).map Prod.fst).take n := by
  rw [bucketHigh, List.map_take]

theorem bucketLow_eq_drop (F : Frame) (d : Date) (G : List Asset) (n : ℕ) :
    bucketLow (groupScores F d G) n
      = ((sortDesc (groupScores F d G)).map Prod.fst).drop
          (((sortDesc (groupScores F d G)).map Prod.fst).length - n) := by
  rw [bucketLow, List.map_drop, List.length_map]

theorem neutral_partition_length (S L : List Asset) (hS : S.Nodup)
    (hperm : L.Perm S) (i j : ℕ) (hij : i + j ≤ S.length) :
    (L.filter (fun a => ¬ a ∈ S.take i ∧ ¬ a ∈ S.drop (S.length - j))).length
      = S.length - i - j := by
  have hlen : (L.filter (fun a =>
      ¬ a ∈ S.take i ∧ ¬ a ∈ S.drop (S.length - j))).length
      = L.countP (fun a =>
          decide (¬ a ∈ S.take i ∧ ¬ a ∈ S.drop (S.length - j))) := by
    rw [List.countP_eq_length_filter]
  rw [hlen, hperm.countP_eq]
  have hdecomp : S = S.take i ++ ((S.drop i).take (S.length - j - i)
      ++ (S.drop i).drop (S.length - j - i)) := by
    rw [List.take_append_drop, List.take_append_drop]
  have hdd : (S.drop i).drop (S.length - j - i) = S.drop (S.length - j) := by
    rw [List.drop_drop]
    congr 1
    omega
  have hcount := congrArg (List.countP (fun a =>
      decide (¬ a ∈ S.take i ∧ ¬ a ∈ S.drop (S.length - j)))) hdecomp
  rw [List.countP_append, List.countP_append] at hcount
  have hA : (S.take i).countP (fun a =>
      decide (¬ a ∈ S.take i ∧ ¬ a ∈ S.drop (S.length - j))) = 0 := by
    rw [List.countP_eq_zero]
    intro a ha
    simp only [decide_eq_true_eq, not_and, not_not]
    intro hc
    exact absurd ha hc
  have hdropnd : (S.drop i).Nodup := (List.drop_sublist i S).nodup hS
  have hB : ((S.drop i).take (S.length - j - i)).countP (fun a =>
      decide (¬ a ∈ S.take i ∧ ¬ a ∈ S.drop (S.length - j))) 
      = ((S.drop i).take (S.length - j - i)).length := by
    rw [List.countP_eq_length]
    intro a ha
    simp only [decide_eq_true_eq]
    constructor
    · intro hc
      exact List.disjoint_take_drop hS (le_refl i) hc
        (List.take_subset _ _ ha)
    · intro hc
      rw [← hdd] at hc
      exact List.disjoint_take_drop hdropnd (le_refl (S.length - j - i)) ha hc
  have hC : (S.drop (S.length - j)).countP (fun a =>
      decide (¬ a ∈ S.take i ∧ ¬ a ∈ S.drop (S.length - j))) = 0 := by
    rw [List.countP_eq_zero]
    intro a ha
    simp only [decide_eq_true_eq, not_and, not_not]
    intro _
    exact ha
  rw [hdd] at hcount
  rw [hcount, hA, hB, hC, List.length_take, List.length_drop]
  omega


/-! ### Claim C7 -/

/-- C7: in conditional triple-sort selection, a common set smaller than 10
yields an empty selection and an all-zero weight row; with at least 10 names,
the value buckets have sizes `⌊0.3n⌋` (high), `⌊0.3n⌋` (low) and the rest
neutral — `int(n * 0.3)` truncates to exactly `⌊3n/10⌋` for every machine
count (see `truncN`); for `n = 20` the sizes are exactly 6, 8 and 6. -/
theorem C7_conditional_bucket_sizes (ctx : Ctx) (T : Tables) (p : CParams)
    (d : Date)
    (hnd : (conditionalCommon T.comp T.valF T.momF T.profF d).Nodup) :
    ((conditionalCommon T.comp T.valF T.momF T.profF d).length < 10 →
      condSelection T.comp T.valF T.momF T.profF d = [] ∧
      ∀ a ∈ T.price.cols,
        wlookup (conditionalPeriodWeights ctx T p d) a = some 0) ∧
    (10 ≤ (conditionalCommon T.comp T.valF T.momF T.profF d).length →
      (valueHighTickers T.valF d
          (conditionalCommon T.comp T.valF T.momF T.profF d)).length
        = truncN (conditionalCommon T.comp T.valF T.momF T.profF d).length ∧
      (valueLowTickers T.valF d
          (conditionalCommon T.comp T.valF T.momF T.profF d)).length
        = truncN (conditionalCommon T.comp T.valF T.momF T.profF d).length ∧
      (valueNeutralTickers T.valF d
          (conditionalCommon T.comp T.valF T.momF T.profF d)).length
        = (conditionalCommon T.comp T.valF T.momF T.profF d).length
          - 2 * truncN (conditionalCommon T.comp T.valF T.momF T.profF d).length) ∧
    ((conditionalCommon T.comp T.valF T.momF T.profF d).length = 20 →
      (valueHighTickers T.valF d
          (conditionalCommon T.comp T.valF T.momF T.profF d)).length = 6 ∧
      (valueNeutralTickers T.valF d
          (conditionalCommon T.comp T.valF T.momF T.profF d)).length = 8 ∧
      (valueLowTickers T.valF d
          (conditionalCommon T.comp T.valF T.momF T.profF d)).length = 6) := by
  have hsizes : 10 ≤ (conditionalCommon T.comp T.valF T.momF T.profF d).length →
      (valueHighTickers T.valF d
          (conditionalCommon T.comp T.valF T.momF T.profF d)).length
        = truncN (conditionalCommon T.comp T.valF T.momF T.profF d).length ∧
      (valueLowTickers T.valF d
          (conditionalCommon T.comp T.valF T.momF T.profF d)).length
        = truncN (conditionalCommon T.comp T.valF T.momF T.profF d).length ∧
      (valueNeutralTickers T.valF d
          (conditionalCommon T.comp T.valF T.momF T.profF d)).length
        = (conditionalCommon T.comp T.valF T.momF T.profF d).length
          - 2 * truncN (conditionalCommon T.comp T.valF T.momF T.profF d).length := by
    intro h10
    set common := conditionalCommon T.comp T.valF T.momF T.profF d with hcommon
    set S := (sortDesc (groupScores T.valF d common)).map Prod.fst with hSdef
    have hperm : S.Perm common := group_keys_perm T.valF d common
    have hSnd : S.Nodup := hperm.nodup_iff.mpr hnd
    have hSlen : S.length = common.length := hperm.length_eq
    have hHeq : valueHighTickers T.valF d common = S.take (truncN common.length) := by
      rw [valueHighTickers, bucketHigh_eq_take]
    have hLeq : valueLowTickers T.valF d common
        = S.drop (S.length - truncN common.length) := by
      rw [valueLowTickers, bucketLow_eq_drop]
    have htle := truncN_add_le common.length
    refine ⟨?_, ?_, ?_⟩
    · rw [hHeq, List.length_take]
      omega
    · rw [hLeq, List.length_drop]
      omega
    · rw [valueNeutralTickers]
      have hfe : (common.filter (fun a =>
          ¬ a ∈ valueHighTickers T.valF d common ∧
            ¬ a ∈ valueLowTickers T.valF d common))
          = common.filter (fun a =>
            ¬ a ∈ S.take (truncN common.length) ∧
              ¬ a ∈ S.drop (S.length - truncN common.length)) := by
        rw [hHeq, hLeq]
      rw [hfe, neutral_partition_length S common hSnd
        (hperm.symm) (truncN common.length) (truncN common.length) (by omega)]
      omega
  refine ⟨?_, hsizes, ?_⟩
  · intro hlt
    have hsel : condSelection T.comp T.valF T.momF T.profF d = [] := by
      rw [condSelection, if_pos hlt]
    refine ⟨hsel, ?_⟩
    intro a ha
    have hz : conditionalPeriodWeights ctx T p d = zerosRow T.price.cols := by
      rw [conditionalPeriodWeights_eq, if_pos (by rw [hsel]; rfl)]
    rw [hz, zerosRow, wlookup_keyform, if_pos ha]
  · intro h20
    have h := hsizes (by omega)
    have ht : truncN (conditionalCommon T.comp T.valF T.momF T.profF d).length = 6 := by
      rw [h20]
      decide
    refine ⟨?_, ?_, ?_⟩
    · rw [h.1, ht]
    · rw [h.2.2, ht, h20]
    · rw [h.2.1, ht]


/-- C7 witness: the bucket sizes on a concrete 20-name common set. -/
theorem C7_conditional_bucket_sizes_witness :
    (conditionalCommon witTables20.comp witTables20.valF witTables20.momF
      witTables20.profF 0).length = 20 ∧
    (valueHighTickers witTables20.valF 0 (conditionalCommon witTables20.comp
      witTables20.valF witTables20.momF witTables20.profF 0)).length = 6 ∧
    (valueNeutralTickers witTables20.valF 0 (conditionalCommon witTables20.comp
      witTables20.valF witTables20.momF witTables20.profF 0)).length = 8 ∧
    (valueLowTickers witTables20.valF 0 (conditionalCommon witTables20.comp
      witTables20.valF witTables20.momF witTables20.profF 0)).length = 6 := by
  have hnd : (conditionalCommon witTables20.comp witTables20.valF witTables20.momF
      witTables20.profF 0).Nodup := by decide
  have h20 : (conditionalCommon witTables20.comp witTables20.valF witTables20.momF
      witTables20.profF 0).length = 20 := by decide
  have h := C7_conditional_bucket_sizes cexCtx witTables20 cexParams1 0 hnd
  exact ⟨h20, (h.2.2 h20).1, (h.2.2 h20).2.1, (h.2.2 h20).2.2⟩

/-! ### Claim C8 -/

theorem group_not_low_iff (F : Frame) (d : Date) (G : List Asset) (hG : G.Nodup)
    (hk : subN G.length + subN G.length ≤ G.length) :
    ∀ a ∈ G, ((a ∈ groupHigh F d G ∨ a ∈ groupNeutral F d G)
      ↔ a ∉ groupLow F d G) := by
  intro a ha
  have hperm := group_keys_perm F d G
  have hSnd : ((sortDesc (groupScores F d G)).map Prod.fst).Nodup :=
    hperm.nodup_iff.mpr hG
  have hSlen : ((sortDesc (groupScores F d G)).map Prod.fst).length = G.length :=
    hperm.length_eq
  have hHeq : groupHigh F d G
      = ((sortDesc (groupScores F d G)).map Prod.fst).take (subN G.length) := by
    rw [groupHigh, bucketHigh_eq_take]
  have hLeq : groupLow F d G
      = ((sortDesc (groupScores F d G)).map Prod.fst).drop
          (((sortDesc (groupScores F d G)).map Prod.fst).length - subN G.length) := by
    rw [groupLow, bucketLow_eq_drop]
  have hdisj : List.Disjoint (groupHigh F d G) (groupLow F d G) := by
    rw [hHeq, hLeq]
    exact List.disjoint_take_drop hSnd (by omega)
  constructor
  · rintro (h | h)
    · exact fun hc => hdisj h hc
    · rw [groupNeutral, List.mem_filter] at h
      have h2 := h.2
      simp only [decide_eq_true_eq] at h2
      exact h2.2
  · intro h
    by_cases hH : a ∈ groupHigh F d G
    · exact Or.inl hH
    · refine Or.inr ?_
      rw [groupNeutral, List.mem_filter]
      refine ⟨ha, ?_⟩
      simp only [decide_eq_true_eq]
      exact ⟨hH, h⟩

/-- C8: with at least 10 common names, the buy-eligible set is exactly the
value-high names whose momentum bucket (within the value-high group) is not
low and whose profitability bucket (within the value-high group) is not low;
in particular nothing in a within-group low bucket reaches the buy list. The
value-high group has at least 3 members, so its high and low sub-buckets are
disjoint and the three sub-buckets partition the group. -/
theorem C8_buy_list_characterization (comp valF momF profF : Frame) (d : Date)
    (hnd : (conditionalCommon comp valF momF profF d).Nodup)
    (h10 : 10 ≤ (conditionalCommon comp valF momF profF d).length) :
    (∀ a, a ∈ buyEligible valF momF profF d (conditionalCommon comp valF momF profF d)
      ↔ a ∈ valueHighTickers valF d (conditionalCommon comp valF momF profF d) ∧
        a ∉ groupLow momF d
          (valueHighTickers valF d (conditionalCommon comp valF momF profF d)) ∧
        a ∉ groupLow profF d
          (valueHighTickers valF d (conditionalCommon comp valF momF profF d))) ∧
    (∀ a, (a ∈ groupLow momF d
          (valueHighTickers valF d (conditionalCommon comp valF momF profF d)) ∨
        a ∈ groupLow profF d
          (valueHighTickers valF d (conditionalCommon comp valF momF profF d))) →
      a ∉ buyEligible valF momF profF d (conditionalCommon comp valF momF profF d)) := by
  have hperm := group_keys_perm valF d (conditionalCommon comp valF momF profF d)
  have hSnd : ((sortDesc (groupScores valF d
      (conditionalCommon comp valF momF profF d))).map Prod.fst).Nodup :=
    hperm.nodup_iff.mpr hnd
  have hSlen := hperm.length_eq
  have hvnd : (valueHighTickers valF d (conditionalCommon comp valF momF profF d)).Nodup := by
    rw [valueHighTickers, bucketHigh_eq_take]
    exact (List.take_sublist _ _).nodup hSnd
  have hklen : (valueHighTickers valF d
      (conditionalCommon comp valF momF profF d)).length
      = truncN (conditionalCommon comp valF momF profF d).length := by
    rw [valueHighTickers, bucketHigh_eq_take, List.length_take]
    have := truncN_le (conditionalCommon comp valF momF profF d).length
    omega
  have hk3 : 3 ≤ (valueHighTickers valF d
      (conditionalCommon comp valF momF profF d)).length := by
    rw [hklen, truncN]
    omega
  have hmom := group_not_low_iff momF d
    (valueHighTickers valF d (conditionalCommon comp valF momF profF d)) hvnd
    (subN_add_le _ hk3)
  have hprof := group_not_low_iff profF d
    (valueHighTickers valF d (conditionalCommon comp valF momF profF d)) hvnd
    (subN_add_le _ hk3)
  have hmem : ∀ a, a ∈ buyEligible valF momF profF d
      (conditionalCommon comp valF momF profF d)
      ↔ a ∈ valueHighTickers valF d (conditionalCommon comp valF momF profF d) ∧
        (a ∈ groupHigh momF d (valueHighTickers valF d
            (conditionalCommon comp valF momF profF d)) ∨
          a ∈ groupNeutral momF d (valueHighTickers valF d
            (conditionalCommon comp valF momF profF d))) ∧
        (a ∈ groupHigh profF d (valueHighTickers valF d
            (conditionalCommon comp valF momF profF d)) ∨
          a ∈ groupNeutral profF d (valueHighTickers valF d
            (conditionalCommon comp valF momF profF d))) := by
    intro a
    simp only [buyEligible, List.mem_dedup, List.mem_append, List.mem_filter,
      decide_eq_true_eq]
    tauto
  constructor
  · intro a
    rw [hmem a]
    constructor
    · rintro ⟨hv, hm, hp⟩
      exact ⟨hv, (hmom a hv).mp hm, (hprof a hv).mp hp⟩
    · rintro ⟨hv, hm, hp⟩
      exact ⟨hv, (hmom a hv).mpr hm, (hprof a hv).mpr hp⟩
  · intro a hlow hbuy
    have hb := (hmem a).mp hbuy
    rcases hlow with h | h
    · exact ((hmom a hb.1).mp hb.2.1) h
    · exact ((hprof a hb.1).mp hb.2.2) h

/-- C8 witness: the characterization instantiated on the concrete 20-name
common set, specialized to asset 0. -/
theorem C8_buy_list_characterization_witness :
    (0 ∈ buyEligible witTables20.valF witTables20.momF witTables20.profF 0
      (conditionalCommon witTables20.comp witTables20.valF witTables20.momF
        witTables20.profF 0)
      ↔ 0 ∈ valueHighTickers witTables20.valF 0
          (conditionalCommon witTables20.comp witTables20.valF witTables20.momF
            witTables20.profF 0) ∧
        0 ∉ groupLow witTables20.momF 0
          (valueHighTickers witTables20.valF 0
            (conditionalCommon witTables20.comp witTables20.valF witTables20.momF
              witTables20.profF 0)) ∧
        0 ∉ groupLow witTables20.profF 0
          (valueHighTickers witTables20.valF 0
            (conditionalCommon witTables20.comp witTables20.valF witTables20.momF
              witTables20.profF 0))) := by
  have hnd : (conditionalCommon witTables20.comp witTables20.valF witTables20.momF
      witTables20.profF 0).Nodup := by decide
  have h10 : 10 ≤ (conditionalCommon witTables20.comp witTables20.valF
      witTables20.momF witTables20.profF 0).length := by decide
  exact (C8_buy_list_characterization witTables20.comp witTables20.valF
    witTables20.momF witTables20.profF 0 hnd h10).1 0


end BBG
